import Mathlib

/-!
Verification of the linear equation solver (`equation_solver.py`).

The embedding models the numeric core over exact rationals `ℚ`: Python
floats become `ℚ`, the fixed tolerance `1e-10` becomes `1/10^10`, mutation
of the augmented matrix becomes explicit state passing, and the in-place
`check_rank` copy discipline is additionally modelled with an explicit
store of row cells (see `check_rank_heap` below) so that the frame
property "the caller's matrix is never mutated" is a real statement.
Python's `abs` is the explicit `absQ` (equal to `|·|`, see `absQ_eq_abs`),
and `sorted` on variable names is insertion sort by code-point order,
matching both Python's and Lean's lexicographic string order.
-/

namespace EqSolver

/-- Tolerance used throughout the source (`1e-10`). -/
def tol : ℚ := 1 / 10 ^ 10

/-- Python's `abs` on our rationals. -/
def absQ (x : ℚ) : ℚ := if x < 0 then -x else x

theorem absQ_eq_abs (x : ℚ) : absQ x = |x| := by
  unfold absQ
  rcases lt_or_le x 0 with h | h
  · rw [if_pos h, abs_of_neg h]
  · rw [if_neg (not_lt.mpr h), abs_of_nonneg h]

theorem tol_pos : 0 < tol := by norm_num [tol]

abbrev Row := List ℚ
abbrev Mat := List Row

/-- `matrix[i][j]` with Python-style reads modelled totally (claims only
use in-bounds accesses, matching the source). -/
def entry (m : Mat) (i j : Nat) : ℚ := (m.getD i []).getD j 0

/-- The `Operator` enum of the source. -/
inductive Operator where
  | ADD
  | SUB
deriving DecidableEq, Repr

/-- The `Term` dataclass: `coefficient`, `variable`, `operator`. -/
structure Term where
  coefficient : ℚ
  var : String
  operator : Operator
deriving DecidableEq, Repr

/-- A parsed equation as consumed by the core: the output shape of
`parse_question` (a term list and a right-hand side). -/
structure Equation where
  terms : List Term
  rhs : ℚ
deriving DecidableEq, Repr

/-- `sign = 1 if term.operator == ADD else -1`. -/
def signOf (o : Operator) : ℚ :=
  if o = Operator.ADD then 1 else -1

/-- Code-point comparison of character lists: Python's (and Lean's)
lexicographic string order. -/
def charListLe : List Char → List Char → Bool
  | [], _ => true
  | _ :: _, [] => false
  | a :: as, b :: bs =>
      if a.val.toNat < b.val.toNat then true
      else if b.val.toNat < a.val.toNat then false
      else charListLe as bs

/-- String comparison by code points. -/
def strLe (a b : String) : Bool := charListLe a.data b.data

/-- Insertion step for the sorted variable ordering. -/
def insertSorted (s : String) : List String → List String
  | [] => [s]
  | x :: xs => if strLe s x then s :: x :: xs else x :: insertSorted s xs

/-- Sorting of variable names (`sorted(all_vars)` in the source). -/
def sortStrings (l : List String) : List String := l.foldr insertSorted []

/-- All variable names occurring in the system. -/
def collectVars (eqs : List Equation) : List String :=
  (eqs.map (fun e => e.terms.map (fun t => t.var))).flatten

/-- `var_order = sorted(all_vars)`: the sorted list of distinct variable
names across all equations. -/
def varOrder (eqs : List Equation) : List String :=
  sortStrings (collectVars eqs).dedup

/-- One accumulation step of the Matrix Builder:
`row[idx] += sign * term.coefficient` at `idx = var_order.index(term.variable)`. -/
def buildRowStep (vo : List String) (row : Row) (t : Term) : Row :=
  let idx := vo.indexOf t.var
  row.set idx (row.getD idx 0 + signOf t.operator * t.coefficient)

/-- The coefficient row built for one equation (`row = [0]*len(var_order)`
then accumulation over the terms). -/
def buildRow (vo : List String) (ts : List Term) : Row :=
  ts.foldl (buildRowStep vo) (List.replicate vo.length 0)

/-- The coefficient matrix `A`. -/
def matA (eqs : List Equation) : Mat :=
  eqs.map (fun e => buildRow (varOrder eqs) e.terms)

/-- The constant vector `B`. -/
def vecB (eqs : List Equation) : List ℚ :=
  eqs.map (fun e => e.rhs)

/-- `augmented = [row + [b] for row, b in zip(A, B)]`. -/
def augMatrixOf (eqs : List Equation) : Mat :=
  List.zipWith (fun row b => row ++ [b]) (matA eqs) (vecB eqs)

/-! ### Gauss-Jordan reducer (`gauss_jordan`) -/

/-- Pivot selection: the row among `i+1 .. rows-1` with the largest
absolute value in column `i`, starting from `pivot_row = i`; strict
improvement only, so ties keep the first index. -/
def findPivotRow (m : Mat) (i : Nat) : Nat :=
  (List.range' (i + 1) (m.length - (i + 1))).foldl
    (fun p j => if absQ (entry m j i) > absQ (entry m p i) then j else p) i

/-- Simultaneous swap of rows `i` and `j`
(`matrix[i], matrix[j] = matrix[j], matrix[i]`). -/
def swapRows (m : Mat) (i j : Nat) : Mat :=
  let ri := m.getD i []
  let rj := m.getD j []
  (m.set i rj).set j ri

/-- Scaling a row by the pivot (`matrix[i][j] /= pivot` for every column). -/
def gjScale (r : Row) (p : ℚ) : Row := r.map (fun x => x / p)

/-- `row_j[k] -= factor * row_i[k]` across a whole row. -/
def rowSubMul (r pr : Row) (f : ℚ) : Row :=
  List.zipWith (fun a b => a - f * b) r pr

/-- Elimination pass over all rows: every row other than `i` whose column-`i`
entry exceeds the tolerance gets `factor * pivot_row` subtracted. -/
def gjElimRows (pr : Row) (i : Nat) : List Row → Nat → List Row
  | [], _ => []
  | r :: rs, j =>
      (if j = i then r
       else if tol < absQ (r.getD i 0) then rowSubMul r pr (r.getD i 0) else r)
        :: gjElimRows pr i rs (j + 1)

/-- The elimination pass of `gauss_jordan` at pivot index `i`. -/
def gjElim (m : Mat) (i : Nat) : Mat :=
  gjElimRows (m.getD i []) i m 0

/-- The matrix after the pivot swap of step `i`
(`if pivot_row != i: swap`). -/
def gjSwapped (m : Mat) (i : Nat) : Mat :=
  if findPivotRow m i = i then m else swapRows m i (findPivotRow m i)

/-- One iteration of the `gauss_jordan` loop: pivot search, swap, tolerance
skip, scale, eliminate. -/
def gjStep (m : Mat) (i : Nat) : Mat :=
  if absQ (entry (gjSwapped m i) i i) < tol then gjSwapped m i
  else
    gjElim ((gjSwapped m i).set i
      (gjScale ((gjSwapped m i).getD i []) (entry (gjSwapped m i) i i))) i

/-- `gauss_jordan`: the loop over pivot indices `0 .. min(rows, cols-1) - 1`
on the augmented matrix; the result is the final state of the (in Python:
in-place mutated) matrix. -/
def gauss_jordan (m : Mat) : Mat :=
  (List.range (min m.length ((m.headD []).length - 1))).foldl gjStep m

/-! ### Rank calculator (`check_rank`) -/

/-- Search for the first row index in a candidate list whose column-`col`
entry exceeds the tolerance. -/
def crFindAux (m : Mat) (col : Nat) : List Nat → Option Nat
  | [] => none
  | r :: rs => if tol < absQ (entry m r col) then some r else crFindAux m col rs

/-- Pivot search of `check_rank`: the first row at or below the current
rank counter whose column-`col` entry exceeds the tolerance. -/
def crFind (m : Mat) (rank rows col : Nat) : Option Nat :=
  crFindAux m col (List.range' rank (rows - rank))

/-- Elimination pass of `check_rank`: every row other than the rank row with
a column entry above tolerance gets `factor * pivot_row` subtracted, where
`factor = temp[row][col] / temp[rank][col]`. -/
def crElimRows (pr : Row) (rk col : Nat) : List Row → Nat → List Row
  | [], _ => []
  | r :: rs, j =>
      (if j = rk then r
       else if tol < absQ (r.getD col 0) then
         rowSubMul r pr (r.getD col 0 / pr.getD col 0)
       else r)
        :: crElimRows pr rk col rs (j + 1)

/-- The elimination pass of `check_rank` at rank position `rk`, column `col`. -/
def crElim (m : Mat) (rk col : Nat) : Mat :=
  crElimRows (m.getD rk []) rk col m 0

/-- One column step of `check_rank`. -/
def crStep (rows : Nat) (st : Mat × Nat) (col : Nat) : Mat × Nat :=
  match crFind st.1 st.2 rows col with
  | none => st
  | some p =>
      let m1 := if p = st.2 then st.1 else swapRows st.1 st.2 p
      (crElim m1 st.2 col, st.2 + 1)

/-- `check_rank`: rank of a matrix by column-sweep Gaussian elimination on a
defensive copy; degenerate inputs return 0 before any work. -/
def check_rank (m : Mat) : Nat :=
  if m = [] ∨ m.headD [] = [] then 0
  else ((List.range ((m.headD []).length)).foldl (crStep m.length) (m, 0)).2

/-! ### Classification result and the solver -/

/-- The classification result: the tagged outcome of a solve.  The Python
source returns `{}` for no solution, a flat variable dict for a unique
solution (insertion order `var_order`), and a tagged record for infinite
solutions; solutions are modelled as association lists in dict insertion
order. -/
inductive SResult where
  | noSolution
  | unique (sol : List (String × ℚ))
  | infinite (basic : List String) (free : List String)
      (examples : List (List (String × ℚ)))
deriving DecidableEq, Repr

/-- Dictionary lookup `solution[var]` (0 if absent; the source only looks
up present keys). -/
def solGet (sol : List (String × ℚ)) (v : String) : ℚ :=
  ((sol.find? (fun p => p.1 == v)).map (fun p => p.2)).getD 0

/-- Dictionary membership `var in solution`. -/
def solHas (sol : List (String × ℚ)) (v : String) : Bool :=
  (sol.find? (fun p => p.1 == v)).isSome

/-- The first coefficient column (index `< n`) of a row whose entry's
magnitude exceeds the tolerance (the `break`-ing inner loops of the
generator). -/
def firstColAux (row : Row) : List Nat → Option Nat
  | [] => none
  | c :: cs => if tol < absQ (row.getD c 0) then some c else firstColAux row cs

/-- The pivot column of a row among the first `n` columns. -/
def firstCol (row : Row) (n : Nat) : Option Nat :=
  firstColAux row (List.range n)

/-- Pivot-column collection of the generator: for each row in row order,
the first coefficient column above tolerance, appended if new. -/
def pivotColsOf (aug : Mat) (n : Nat) : List Nat :=
  aug.foldl
    (fun acc row =>
      match firstCol row n with
      | none => acc
      | some c => if acc.contains c then acc else acc ++ [c])
    []

/-- The free variables: variables whose column index is claimed by no row. -/
def freeVarsOf (vo : List String) (pcs : List Nat) : List String :=
  ((List.range vo.length).filter (fun i => !(pcs.contains i))).map
    (fun i => vo.getD i "")

/-- The fixed battery of sample free-variable assignments. -/
def freeValueBattery (k : Nat) : List (List ℚ) :=
  if k > 1 then
    [List.replicate k 0, List.replicate k 1, List.replicate k (-1),
      1 :: 0 :: List.replicate (k - 2) 0, 0 :: 1 :: List.replicate (k - 2) 0]
  else
    [List.replicate k 0, List.replicate k 1, List.replicate k (-1),
      List.replicate k 2, List.replicate k (-2)]

/-- Back-substitution for one row: find the row's pivot column among the
coefficient columns; if its variable is unset, subtract the already-known
terms to the right of the pivot (terms whose variable is not yet known are
skipped by the `in solution` guard) and divide by the pivot entry. -/
def backSubRow (aug : Mat) (vo : List String) (n : Nat)
    (sol : List (String × ℚ)) (r : Nat) : List (String × ℚ) :=
  let row := aug.getD r []
  match firstCol row n with
  | none => sol
  | some pc =>
      let vn := vo.getD pc ""
      if solHas sol vn then sol
      else
        let rhs := (List.range' (pc + 1) (n - (pc + 1))).foldl
          (fun acc c =>
            if solHas sol (vo.getD c "") then
              acc - row.getD c 0 * solGet sol (vo.getD c "")
            else acc)
          (row.getLastD 0)
        if tol < absQ (row.getD pc 0) then sol ++ [(vn, rhs / row.getD pc 0)]
        else sol

/-- Back-substitution over all rows, last to first. -/
def backSubstitute (aug : Mat) (vo : List String) (n : Nat)
    (sol0 : List (String × ℚ)) : List (String × ℚ) :=
  (List.range aug.length).reverse.foldl (backSubRow aug vo n) sol0

/-- `_generate_infinite_solutions`: classify pivot/free columns, assign the
sample battery to the free variables, back-substitute each sample. -/
def generate_infinite_solutions (aug : Mat) (vo : List String) : SResult :=
  let n := vo.length
  let pcs := pivotColsOf aug n
  let basic := pcs.map (fun c => vo.getD c "")
  let free := freeVarsOf vo pcs
  let sols := (freeValueBattery free.length).map
    (fun fv => backSubstitute aug vo n (free.zip fv))
  SResult.infinite basic free sols

/-- The reduced augmented matrix (`augmented` after `gauss_jordan`). -/
def reducedAugOf (eqs : List Equation) : Mat :=
  gauss_jordan (augMatrixOf eqs)

/-- `coefficient = [row[:-1] for row in augmented]` after reduction. -/
def reducedCoeffOf (eqs : List Equation) : Mat :=
  (reducedAugOf eqs).map (fun row => row.dropLast)

/-- `c_rank_A = check_rank(coefficient)`. -/
def rankAOf (eqs : List Equation) : Nat := check_rank (reducedCoeffOf eqs)

/-- `c_rank_aug = check_rank(augmented)`. -/
def rankAugOf (eqs : List Equation) : Nat := check_rank (reducedAugOf eqs)

/-- `c_num_vars = len(coefficient[0])`. -/
def numVarsOf (eqs : List Equation) : Nat :=
  ((reducedCoeffOf eqs).headD []).length

/-- `ret`: the last column of the reduced augmented matrix, row for row. -/
def retOf (eqs : List Equation) : List ℚ :=
  (reducedAugOf eqs).map (fun row => row.getLastD 0)

/-- `solve_equations_manual`: build the matrices, reduce, compare ranks,
classify. -/
def solve_equations_manual (eqs : List Equation) : SResult :=
  if rankAOf eqs ≠ rankAugOf eqs then SResult.noSolution
  else if rankAOf eqs < numVarsOf eqs then
    generate_infinite_solutions (reducedAugOf eqs) (varOrder eqs)
  else SResult.unique ((varOrder eqs).zip (retOf eqs))

/-- Substituting an assignment into an equation with the Matrix Builder's
row semantics: the sum over the terms of
`sign(operator) * coefficient * assigned value`. -/
def evalTerms (ts : List Term) (sol : List (String × ℚ)) : ℚ :=
  (ts.map (fun t => signOf t.operator * t.coefficient * solGet sol t.var)).sum

/-- A well-formed input system: at least one equation, and every equation
has at least one term (the spec's malformed-input condition). -/
def WellFormed (eqs : List Equation) : Prop :=
  eqs ≠ [] ∧ ∀ e ∈ eqs, e.terms ≠ []

instance : DecidablePred WellFormed := fun eqs => by
  unfold WellFormed; infer_instance

/-- The first column of a row whose entry's magnitude exceeds the
tolerance, over the whole row: the "leading nonzero entry" of the claimed
reduced-row-echelon-form property. -/
def leadColFull (r : Row) : Option Nat :=
  firstColAux r (List.range r.length)

/-- The reduced-row-echelon-form property exactly as the specification
claims it: every nonzero row's leading above-tolerance entry equals 1 up to
tolerance and is the only above-tolerance entry in its column. -/
def rrefCheck (m : Mat) : Bool :=
  (List.range m.length).all fun i =>
    match leadColFull (m.getD i []) with
    | none => true
    | some c =>
        if absQ (entry m i c - 1) ≤ tol then
          (List.range m.length).all fun j =>
            if j = i then true
            else if absQ (entry m j c) ≤ tol then true else false
        else false

/-! ### Rank bound lemmas -/

theorem crStep_rank_le (rows : Nat) (st : Mat × Nat) (col : Nat) :
    (crStep rows st col).2 ≤ st.2 + 1 := by
  unfold crStep
  cases h : crFind st.1 st.2 rows col <;> simp

theorem crFold_rank_le (rows : Nat) (l : List Nat) (st : Mat × Nat) :
    (l.foldl (crStep rows) st).2 ≤ st.2 + l.length := by
  induction l generalizing st with
  | nil => simp
  | cons a l ih =>
      calc (List.foldl (crStep rows) (crStep rows st a) l).2
          ≤ (crStep rows st a).2 + l.length := ih _
        _ ≤ st.2 + 1 + l.length := by
            have := crStep_rank_le rows st a; omega
        _ = st.2 + (a :: l).length := by simp; omega

theorem crFindAux_mem (m : Mat) (col : Nat) (l : List Nat) (p : Nat)
    (h : crFindAux m col l = some p) : p ∈ l := by
  induction l with
  | nil => simp [crFindAux] at h
  | cons a l ih =>
      unfold crFindAux at h
      split at h
      · cases h; exact List.mem_cons_self _ _
      · exact List.mem_cons_of_mem _ (ih h)

theorem crStep_rank_le_rows (rows : Nat) (st : Mat × Nat) (col : Nat)
    (h : st.2 ≤ rows) : (crStep rows st col).2 ≤ rows := by
  unfold crStep
  cases hf : crFind st.1 st.2 rows col with
  | none => exact h
  | some p =>
      have hp := crFindAux_mem _ _ _ _ hf
      rw [List.mem_range'_1] at hp
      simpa using by omega

theorem crFold_rank_le_rows (rows : Nat) (l : List Nat) (st : Mat × Nat)
    (h : st.2 ≤ rows) : (l.foldl (crStep rows) st).2 ≤ rows := by
  induction l generalizing st with
  | nil => exact h
  | cons a l ih => exact ih _ (crStep_rank_le_rows rows st a h)

/-- `check_rank` never exceeds the row count nor the column count. -/
theorem check_rank_le (m : Mat) :
    check_rank m ≤ min m.length ((m.headD []).length) := by
  unfold check_rank
  split
  · exact Nat.zero_le _
  · refine le_min ?_ ?_
    · exact crFold_rank_le_rows _ _ _ (Nat.zero_le _)
    · simpa using crFold_rank_le m.length (List.range ((m.headD []).length)) (m, 0)

/-! ### Claim theorems: totality, determinism, error handling -/

/-- C10: `check_rank` is total on degenerate inputs: the empty matrix and
any matrix whose first row is empty return 0 (the source's early guard
fires before any index is touched). -/
theorem c10_check_rank_degenerate :
    check_rank ([] : Mat) = 0 ∧ ∀ rest : Mat, check_rank ([] :: rest) = 0 := by
  constructor
  · rfl
  · intro rest; simp [check_rank]

/-- C8: `solve_equations_manual` is deterministic: the embedding is a pure
function of the equation list (the source's only run-to-run nondeterminism
source, Python set iteration over `all_vars`, is neutralized by `sorted`),
so identical input — including term order — yields identical
classification and identical example solutions. -/
theorem c8_solve_deterministic (eqs : List Equation) :
    solve_equations_manual eqs = solve_equations_manual eqs := rfl

/-- C3 counterexample: an input whose single equation yields zero terms is
processed without any error: the solver runs to completion and returns the
`NoSolution` classification, so no `MalformedEquationError` is raised (no
such error class exists anywhere in the source). -/
theorem c3_counterexample_zero_terms_no_error :
    solve_equations_manual [⟨[], 5⟩] = SResult.noSolution := by
  have hvo : varOrder [(⟨[], 5⟩ : Equation)] = [] := by decide
  have haug : augMatrixOf [(⟨[], 5⟩ : Equation)] = [[5]] := by
    norm_num [augMatrixOf, matA, vecB, buildRow, hvo]
  have hred : reducedAugOf [(⟨[], 5⟩ : Equation)] = [[5]] := by
    norm_num [reducedAugOf, haug, gauss_jordan]
  have hco : reducedCoeffOf [(⟨[], 5⟩ : Equation)] = [[]] := by
    norm_num [reducedCoeffOf, hred]
  have hra : rankAOf [(⟨[], 5⟩ : Equation)] = 0 := by
    norm_num [rankAOf, hco, check_rank]
  have hraug : rankAugOf [(⟨[], 5⟩ : Equation)] = 1 := by
    norm_num [rankAugOf, hred, check_rank, crStep, crFind, crFindAux, crElim, crElimRows,
      entry, tol, absQ, List.range_succ, List.range', List.cons_ne_nil]
  norm_num [solve_equations_manual, hra, hraug]

/-- C3 amended: no `MalformedEquationError` exists in the code; an equation
with zero terms is silently accepted, contributing an all-zero coefficient
row, and solving proceeds to the usual rank-based classification (here:
`NoSolution`, because the zero row keeps its right-hand side `5`).  A
non-finite right-hand side cannot arise in the core's exact arithmetic
model and is likewise never checked by the source. -/
theorem c3_amended_zero_terms_accepted :
    (∀ vo : List String, buildRow vo [] = List.replicate vo.length 0) ∧
      solve_equations_manual [⟨[⟨1, "x", Operator.ADD⟩], 2⟩, ⟨[], 5⟩] =
        SResult.noSolution := by
  refine ⟨fun vo => rfl, ?_⟩
  set E : List Equation := [⟨[⟨1, "x", Operator.ADD⟩], 2⟩, ⟨[], 5⟩] with hE
  have hvo : varOrder E = ["x"] := by decide
  have haug : augMatrixOf E = [[1, 2], [0, 5]] := by
    norm_num [augMatrixOf, matA, vecB, buildRow, buildRowStep, hvo, hE, signOf,
      List.replicate, List.indexOf, List.findIdx, List.findIdx.go]
  have hred : reducedAugOf E = [[1, 2], [0, 5]] := by
    norm_num [reducedAugOf, haug, gauss_jordan, gjStep, gjSwapped, findPivotRow, entry, tol, absQ,
      List.range_succ, List.range', swapRows, gjScale, gjElim, gjElimRows, rowSubMul]
  have hco : reducedCoeffOf E = [[1], [0]] := by
    norm_num [reducedCoeffOf, hred, List.dropLast]
  have hra : rankAOf E = 1 := by
    norm_num [rankAOf, hco, check_rank, crStep, crFind, crFindAux, crElim, crElimRows,
      entry, tol, absQ, List.range_succ, List.range', swapRows, rowSubMul,
      List.cons_ne_nil]
  have hraug : rankAugOf E = 2 := by
    norm_num [rankAugOf, hred, check_rank, crStep, crFind, crFindAux, crElim, crElimRows,
      entry, tol, absQ, List.range_succ, List.range', swapRows, rowSubMul,
      List.cons_ne_nil]
  norm_num [solve_equations_manual, hra, hraug]

/-- C1 (code bug): for the well-formed system `{0x + y + z = 2,
0x + y + 2z = 3}` the solver classifies `InfiniteSolutions`, but every
generated example solution sets `y = 3, z = 1`, and substituting into the
first original equation yields `4`, not `2` — off by `2`, far beyond the
`1e-9` tolerance.  The back-substitution drops the `z` term of the second
reduced row (`y + 2z = 3`) because `z` is not yet in the solution dict when
that row is processed: after the skipped first column the reduced matrix
has non-monotone pivot columns, so the bottom-up walk meets a basic
variable to the right of a pivot before it has been computed. -/
theorem c1_backsub_drops_terms :
    solve_equations_manual
        [⟨[⟨0, "x", Operator.ADD⟩, ⟨1, "y", Operator.ADD⟩, ⟨1, "z", Operator.ADD⟩], 2⟩,
         ⟨[⟨0, "x", Operator.ADD⟩, ⟨1, "y", Operator.ADD⟩, ⟨2, "z", Operator.ADD⟩], 3⟩] =
      SResult.infinite ["z", "y"] ["x"]
        [[("x", 0), ("y", 3), ("z", 1)], [("x", 1), ("y", 3), ("z", 1)],
         [("x", -1), ("y", 3), ("z", 1)], [("x", 2), ("y", 3), ("z", 1)],
         [("x", -2), ("y", 3), ("z", 1)]] ∧
    evalTerms [⟨0, "x", Operator.ADD⟩, ⟨1, "y", Operator.ADD⟩, ⟨1, "z", Operator.ADD⟩]
        [("x", 0), ("y", 3), ("z", 1)] = 4 ∧
    ¬(|(4 : ℚ) - 2| ≤ 1 / 10 ^ 9) := by
  have hb1 : (("x" : String) == "y") = false := by decide
  have hb2 : (("x" : String) == "z") = false := by decide
  have hb3 : (("y" : String) == "z") = false := by decide
  have hb4 : (("y" : String) == "x") = false := by decide
  have hb5 : (("z" : String) == "x") = false := by decide
  have hb6 : (("z" : String) == "y") = false := by decide
  refine ⟨?_, ?_, ?_⟩
  · set E : List Equation :=
      [⟨[⟨0, "x", Operator.ADD⟩, ⟨1, "y", Operator.ADD⟩, ⟨1, "z", Operator.ADD⟩], 2⟩,
       ⟨[⟨0, "x", Operator.ADD⟩, ⟨1, "y", Operator.ADD⟩, ⟨2, "z", Operator.ADD⟩], 3⟩]
      with hE
    have hvo : varOrder E = ["x", "y", "z"] := by decide
    have hidx : (["x", "y", "z"] : List String).indexOf "x" = 0 ∧
        (["x", "y", "z"] : List String).indexOf "y" = 1 ∧
        (["x", "y", "z"] : List String).indexOf "z" = 2 := by decide
    have haug : augMatrixOf E = [[0, 1, 1, 2], [0, 1, 2, 3]] := by
      norm_num [augMatrixOf, matA, vecB, buildRow, buildRowStep, hvo, hE, hidx.1,
        hidx.2.1, hidx.2.2, signOf, List.replicate]
    have hred : reducedAugOf E = [[0, 0, -1, -1], [0, 1, 2, 3]] := by
      norm_num [reducedAugOf, haug, gauss_jordan, gjStep, gjSwapped, findPivotRow, entry, tol, absQ,
        List.range_succ, List.range', swapRows, gjScale, gjElim, gjElimRows, rowSubMul]
    have hco : reducedCoeffOf E = [[0, 0, -1], [0, 1, 2]] := by
      norm_num [reducedCoeffOf, hred, List.dropLast]
    have hra : rankAOf E = 2 := by
      norm_num [rankAOf, hco, check_rank, crStep, crFind, crFindAux, crElim, crElimRows,
        entry, tol, absQ, List.range_succ, List.range', swapRows, rowSubMul,
        List.cons_ne_nil]
    have hraug : rankAugOf E = 2 := by
      norm_num [rankAugOf, hred, check_rank, crStep, crFind, crFindAux, crElim,
        crElimRows, entry, tol, absQ, List.range_succ, List.range', swapRows, rowSubMul,
        List.cons_ne_nil]
    have hnv : numVarsOf E = 3 := by norm_num [numVarsOf, hco]
    have hgen : generate_infinite_solutions [[0, 0, -1, -1], [0, 1, 2, 3]] ["x", "y", "z"] =
        SResult.infinite ["z", "y"] ["x"]
          [[("x", 0), ("y", 3), ("z", 1)], [("x", 1), ("y", 3), ("z", 1)],
           [("x", -1), ("y", 3), ("z", 1)], [("x", 2), ("y", 3), ("z", 1)],
           [("x", -2), ("y", 3), ("z", 1)]] := by
      have hpc : pivotColsOf [[0, 0, -1, -1], [0, 1, 2, 3]] 3 = [2, 1] := by
        norm_num [pivotColsOf, firstCol, firstColAux, tol, absQ, List.range_succ,
          List.range', List.contains]
      have hn1 : ("x" : String) ≠ "y" := by decide
      have hn2 : ("x" : String) ≠ "z" := by decide
      have hn3 : ("y" : String) ≠ "z" := by decide
      norm_num [generate_infinite_solutions, hpc, freeVarsOf, freeValueBattery,
        backSubstitute, backSubRow, firstCol, firstColAux, solHas, solGet, entry, tol,
        absQ, List.range_succ, List.range', List.contains, List.zip, List.zipWith,
        List.getD, hb1, hb2, hb3, hb4, hb5, hb6, hn1, hn2, hn3]
    rw [solve_equations_manual, hra, hraug, hnv]
    norm_num [hvo, hred, hgen]
  · norm_num [evalTerms, solGet, signOf, List.find?, hb1, hb2, hb3, hb4, hb5, hb6]
  · rw [show ((4 : ℚ) - 2) = 2 by norm_num]
    rw [← absQ_eq_abs]
    norm_num [absQ]


/-- C4 counterexample: `gauss_jordan` does not leave every matrix in
reduced row-echelon form: on the augmented matrix `[[0, 2, 5]]` (equation
`0x + 2y = 5`) the diagonal pivot is skipped, the matrix is returned
unchanged, and the single nonzero row's leading above-tolerance entry is
`2`, not `1`. -/
theorem c4_counterexample_not_rref :
    gauss_jordan [[0, 2, 5]] = [[0, 2, 5]] ∧
      rrefCheck (gauss_jordan [[0, 2, 5]]) = false := by
  have h : gauss_jordan [[0, 2, 5]] = [[0, 2, 5]] := by
    norm_num [gauss_jordan, gjStep, gjSwapped, findPivotRow, entry, tol, absQ, List.range_succ]
  refine ⟨h, ?_⟩
  rw [h]
  norm_num [rrefCheck, leadColFull, firstCol, firstColAux, entry, tol, absQ,
    List.range_succ, List.range', List.all_cons, List.all_nil]

/-- C7 counterexample: `gauss_jordan` is not idempotent: on a matrix with
sub-tolerance dust entries the first pass amplifies the dust (scaling by a
pivot of magnitude exactly `1e-10`) into entries far above tolerance, and
a second pass then swaps, rescales and re-eliminates, changing the matrix
again. -/
theorem c7_counterexample_not_idempotent :
    gauss_jordan (gauss_jordan [[9 / 10 ^ 11, 1, 0], [9 / 10 ^ 11, 1 / 10 ^ 10, 0]]) ≠
      gauss_jordan [[9 / 10 ^ 11, 1, 0], [9 / 10 ^ 11, 1 / 10 ^ 10, 0]] := by
  norm_num [gauss_jordan, gjStep, gjSwapped, findPivotRow, entry, tol, absQ,
    List.range_succ, List.range', swapRows, gjScale, gjElim, gjElimRows, rowSubMul]


/-! ### Branch lemmas for the classifier -/

theorem solve_branch_no (eqs : List Equation) (h : rankAOf eqs ≠ rankAugOf eqs) :
    solve_equations_manual eqs = SResult.noSolution := by
  rw [solve_equations_manual, if_pos h]

theorem solve_branch_inf (eqs : List Equation) (h1 : rankAOf eqs = rankAugOf eqs)
    (h2 : rankAOf eqs < numVarsOf eqs) :
    solve_equations_manual eqs =
      generate_infinite_solutions (reducedAugOf eqs) (varOrder eqs) := by
  rw [solve_equations_manual, if_neg (not_not_intro h1), if_pos h2]

theorem solve_branch_uni (eqs : List Equation) (h1 : rankAOf eqs = rankAugOf eqs)
    (h2 : ¬rankAOf eqs < numVarsOf eqs) :
    solve_equations_manual eqs = SResult.unique ((varOrder eqs).zip (retOf eqs)) := by
  rw [solve_equations_manual, if_neg (not_not_intro h1), if_neg h2]

/-- The input of the dust counterexamples: `0.00000000009x + y = 0` and
`0.00000000009x + 0.0000000001y = 1` (all coefficients finite and
well-formed; the `x` coefficients sit just below the `1e-10` tolerance). -/
def sysDust : List Equation :=
  [⟨[⟨9 / 10 ^ 11, "x", Operator.ADD⟩, ⟨1, "y", Operator.ADD⟩], 0⟩,
   ⟨[⟨9 / 10 ^ 11, "x", Operator.ADD⟩, ⟨1 / 10 ^ 10, "y", Operator.ADD⟩], 1⟩]

theorem sysDust_varOrder : varOrder sysDust = ["x", "y"] := by decide

theorem sysDust_aug : augMatrixOf sysDust =
    [[9 / 10 ^ 11, 1, 0], [9 / 10 ^ 11, 1 / 10 ^ 10, 1]] := by
  have hb1 : (("x" : String) == "y") = false := by decide
  rw [augMatrixOf, matA, vecB, sysDust_varOrder]
  norm_num [sysDust, buildRow, buildRowStep, signOf, List.replicate,
    List.indexOf, List.findIdx, List.findIdx.go, hb1]

theorem sysDust_red : reducedAugOf sysDust =
    [[-89999999991 / 100000000000, 0, -10000000000], [9 / 10, 1, 10000000000]] := by
  rw [reducedAugOf, sysDust_aug]
  norm_num [gauss_jordan, gjStep, gjSwapped, findPivotRow, entry, tol, absQ,
    List.range_succ, List.range', swapRows, gjScale, gjElim, gjElimRows, rowSubMul]

theorem sysDust_coeff : reducedCoeffOf sysDust =
    [[-89999999991 / 100000000000, 0], [9 / 10, 1]] := by
  rw [reducedCoeffOf, sysDust_red]
  norm_num [List.dropLast]

theorem sysDust_rankA : rankAOf sysDust = 2 := by
  rw [rankAOf, sysDust_coeff]
  norm_num [check_rank, crStep, crFind, crFindAux, crElim, crElimRows, entry, tol,
    absQ, List.range_succ, List.range', swapRows, rowSubMul, List.cons_ne_nil]

theorem sysDust_rankAug : rankAugOf sysDust = 2 := by
  rw [rankAugOf, sysDust_red]
  norm_num [check_rank, crStep, crFind, crFindAux, crElim, crElimRows, entry, tol,
    absQ, List.range_succ, List.range', swapRows, rowSubMul, List.cons_ne_nil]

theorem sysDust_numVars : numVarsOf sysDust = 2 := by
  rw [numVarsOf, sysDust_coeff]
  norm_num

theorem sysDust_solve : solve_equations_manual sysDust =
    SResult.unique [("x", -(10 ^ 10 : ℚ)), ("y", (10 ^ 10 : ℚ))] := by
  rw [solve_branch_uni sysDust (by rw [sysDust_rankA, sysDust_rankAug])
      (by rw [sysDust_rankA, sysDust_numVars]; omega),
    sysDust_varOrder, retOf, sysDust_red]
  norm_num [List.zip, List.zipWith]

/-- C2 counterexample: a well-formed system that the solver classifies as
`UniqueSolution` whose returned mapping violates the first original
equation by about `10^10`: the sub-tolerance coefficients `9e-11` survive a
skipped pivot column, are amplified by scaling with a pivot of magnitude
exactly `1e-10`, and the rank checks on the reduced matrices then report a
full-rank system whose rows are not aligned with `var_order`. -/
theorem c2_counterexample_unique_not_satisfying :
    solve_equations_manual sysDust =
      SResult.unique [("x", -(10 ^ 10 : ℚ)), ("y", (10 ^ 10 : ℚ))] ∧
    ¬(|evalTerms [⟨9 / 10 ^ 11, "x", Operator.ADD⟩, ⟨1, "y", Operator.ADD⟩]
          [("x", -(10 ^ 10 : ℚ)), ("y", (10 ^ 10 : ℚ))] -
        0| ≤ 1 / 10 ^ 9) := by
  have hb1 : (("x" : String) == "y") = false := by decide
  have hb4 : (("y" : String) == "x") = false := by decide
  refine ⟨sysDust_solve, ?_⟩
  have hev : evalTerms [⟨9 / 10 ^ 11, "x", Operator.ADD⟩, ⟨1, "y", Operator.ADD⟩]
      [("x", -(10 ^ 10 : ℚ)), ("y", (10 ^ 10 : ℚ))] = 99999999991 / 10 := by
    norm_num [evalTerms, solGet, signOf, List.find?, hb1, hb4]
  rw [hev, show ((99999999991 : ℚ) / 10 - 0) = 99999999991 / 10 by norm_num,
    ← absQ_eq_abs]
  norm_num [absQ]

/-- C5 counterexample: the classification is *not* decided by the ranks of
the original matrices built by the Matrix Builder: on the dust system the
original coefficient matrix has `check_rank` 1 while the original
augmented matrix has `check_rank` 2 — so the claimed rule demands
`NoSolution` — yet the solver, which computes ranks of the matrices *after*
Gauss-Jordan reduction, returns a `UniqueSolution`. -/
theorem c5_counterexample_original_ranks :
    check_rank (matA sysDust) = 1 ∧
    check_rank (augMatrixOf sysDust) = 2 ∧
    solve_equations_manual sysDust ≠ SResult.noSolution := by
  have hb1 : (("x" : String) == "y") = false := by decide
  have hA : matA sysDust = [[9 / 10 ^ 11, 1], [9 / 10 ^ 11, 1 / 10 ^ 10]] := by
    rw [matA, sysDust_varOrder]
    norm_num [sysDust, buildRow, buildRowStep, signOf, List.replicate,
      List.indexOf, List.findIdx, List.findIdx.go, hb1]
  refine ⟨?_, ?_, ?_⟩
  · rw [hA]
    norm_num [check_rank, crStep, crFind, crFindAux, crElim, crElimRows, entry, tol,
      absQ, List.range_succ, List.range', swapRows, rowSubMul, List.cons_ne_nil]
  · rw [sysDust_aug]
    norm_num [check_rank, crStep, crFind, crFindAux, crElim, crElimRows, entry, tol,
      absQ, List.range_succ, List.range', swapRows, rowSubMul, List.cons_ne_nil]
  · rw [sysDust_solve]
    simp

/-- C5 amended: for every well-formed input the classification is exactly
one of the three outcomes, decided by the `check_rank` ranks of the
*reduced* coefficient and augmented matrices: `NoSolution` iff the two
ranks differ, `UniqueSolution` iff both equal the number of variables,
`InfiniteSolutions` iff they are equal and smaller. -/
theorem c5_amended_classification (eqs : List Equation) (_hwf : WellFormed eqs) :
    (solve_equations_manual eqs = SResult.noSolution ↔ rankAOf eqs ≠ rankAugOf eqs) ∧
    ((∃ s, solve_equations_manual eqs = SResult.unique s) ↔
      rankAOf eqs = rankAugOf eqs ∧ rankAOf eqs = numVarsOf eqs) ∧
    ((∃ b f ex, solve_equations_manual eqs = SResult.infinite b f ex) ↔
      rankAOf eqs = rankAugOf eqs ∧ rankAOf eqs < numVarsOf eqs) := by
  have hle : rankAOf eqs ≤ numVarsOf eqs := by
    have h := check_rank_le (reducedCoeffOf eqs)
    exact le_trans h (min_le_right _ _)
  refine ⟨⟨fun h => ?_, solve_branch_no eqs⟩,
    ⟨fun hs => ?_, fun h12 => ?_⟩, ⟨fun hs => ?_, fun h12 => ?_⟩⟩
  · intro heq
    by_cases h2 : rankAOf eqs < numVarsOf eqs
    · rw [solve_branch_inf eqs heq h2] at h
      exact absurd h (by simp [generate_infinite_solutions])
    · rw [solve_branch_uni eqs heq h2] at h
      exact SResult.noConfusion h
  · obtain ⟨s, hs⟩ := hs
    by_cases h1 : rankAOf eqs ≠ rankAugOf eqs
    · rw [solve_branch_no eqs h1] at hs
      exact SResult.noConfusion hs
    · push_neg at h1
      by_cases h2 : rankAOf eqs < numVarsOf eqs
      · rw [solve_branch_inf eqs h1 h2] at hs
        exact absurd hs.symm (by simp [generate_infinite_solutions])
      · exact ⟨h1, by omega⟩
  · exact ⟨_, solve_branch_uni eqs h12.1 (by omega)⟩
  · obtain ⟨b, f, ex, hs⟩ := hs
    by_cases h1 : rankAOf eqs ≠ rankAugOf eqs
    · rw [solve_branch_no eqs h1] at hs
      exact SResult.noConfusion hs
    · push_neg at h1
      by_cases h2 : rankAOf eqs < numVarsOf eqs
      · exact ⟨h1, h2⟩
      · rw [solve_branch_uni eqs h1 h2] at hs
        exact SResult.noConfusion hs
  · exact ⟨_, _, _, solve_branch_inf eqs h12.1 h12.2⟩

/-- C5 witness: the spec's own unique-solution scenario satisfies the
amended classification rule. -/
theorem c5_amended_classification_witness :
    WellFormed [⟨[⟨2, "x", Operator.ADD⟩, ⟨3, "y", Operator.ADD⟩], 7⟩,
        ⟨[⟨1, "x", Operator.ADD⟩, ⟨1, "y", Operator.SUB⟩], 1⟩] ∧
    ((∃ s, solve_equations_manual
        [⟨[⟨2, "x", Operator.ADD⟩, ⟨3, "y", Operator.ADD⟩], 7⟩,
         ⟨[⟨1, "x", Operator.ADD⟩, ⟨1, "y", Operator.SUB⟩], 1⟩] = SResult.unique s) ↔
      rankAOf [⟨[⟨2, "x", Operator.ADD⟩, ⟨3, "y", Operator.ADD⟩], 7⟩,
          ⟨[⟨1, "x", Operator.ADD⟩, ⟨1, "y", Operator.SUB⟩], 1⟩] =
        rankAugOf [⟨[⟨2, "x", Operator.ADD⟩, ⟨3, "y", Operator.ADD⟩], 7⟩,
          ⟨[⟨1, "x", Operator.ADD⟩, ⟨1, "y", Operator.SUB⟩], 1⟩] ∧
      rankAOf [⟨[⟨2, "x", Operator.ADD⟩, ⟨3, "y", Operator.ADD⟩], 7⟩,
          ⟨[⟨1, "x", Operator.ADD⟩, ⟨1, "y", Operator.SUB⟩], 1⟩] =
        numVarsOf [⟨[⟨2, "x", Operator.ADD⟩, ⟨3, "y", Operator.ADD⟩], 7⟩,
          ⟨[⟨1, "x", Operator.ADD⟩, ⟨1, "y", Operator.SUB⟩], 1⟩]) :=
  ⟨by decide, (c5_amended_classification _ (by decide)).2.1⟩



/-! ### Heap model of `check_rank`'s defensive copy (C9)

Python rows are mutable list objects; `check_rank` builds
`temp_matrix = [row[:] for row in matrix]`, a list of *fresh* row cells,
and mutates only those.  We model the heap explicitly: a `Store` of row
cells addressed by `Nat`, the caller's matrix as a list of addresses, and
the elimination as writes through the temp addresses.  The frame theorem
below states that every address the caller can see is untouched. -/

abbrev Store := List Row

/-- Reading a row cell. -/
def hRead (s : Store) (a : Nat) : Row := s.getD a []

/-- Writing a row cell. -/
def hWrite (s : Store) (a : Nat) (r : Row) : Store := s.set a r

/-- Pivot search of the heap model: first *position* (index into the temp
handle list) at or below the rank counter whose entry exceeds tolerance. -/
def crHFindAux (s : Store) (th : List Nat) (col : Nat) : List Nat → Option Nat
  | [] => none
  | q :: qs =>
      if tol < absQ ((hRead s (th.getD q 0)).getD col 0) then some q
      else crHFindAux s th col qs

/-- Elimination pass of the heap model: for every position other than the
rank position whose entry exceeds tolerance, write the combined row back
through its temp address. -/
def crHElim (s : Store) (th : List Nat) (rk col : Nat) : Store :=
  (List.range th.length).foldl
    (fun st q =>
      if q = rk then st
      else if tol < absQ ((hRead st (th.getD q 0)).getD col 0) then
        hWrite st (th.getD q 0)
          (rowSubMul (hRead st (th.getD q 0)) (hRead st (th.getD rk 0))
            ((hRead st (th.getD q 0)).getD col 0 /
              (hRead st (th.getD rk 0)).getD col 0))
      else st)
    s

/-- One column step of the heap model: find the pivot position, swap the
two *handles* (Python swaps list references, not row contents), eliminate,
bump the rank. -/
def crHStep (rows : Nat) (st : Store × List Nat × Nat) (col : Nat) :
    Store × List Nat × Nat :=
  match crHFindAux st.1 st.2.1 col (List.range' st.2.2 (rows - st.2.2)) with
  | none => st
  | some p =>
      let th := st.2.1
      let rk := st.2.2
      let th1 := if p = rk then th else (th.set rk (th.getD p 0)).set p (th.getD rk 0)
      (crHElim st.1 th1 rk col, th1, rk + 1)

/-- `check_rank` on the heap: degenerate guard, then allocation of the
defensive copy as fresh cells appended to the store, then the column sweep
over the temp handles.  Returns the rank and the final store. -/
def check_rank_heap (s : Store) (hs : List Nat) : Nat × Store :=
  if hs = [] ∨ hRead s (hs.headD 0) = [] then (0, s)
  else
    let s1 := s ++ hs.map (hRead s)
    let th := List.range' s.length hs.length
    let res := (List.range ((hRead s (hs.headD 0)).length)).foldl
      (crHStep hs.length) (s1, th, 0)
    (res.2.2, res.1)

theorem hRead_hWrite_ne (s : Store) (a b : Nat) (r : Row) (hab : a ≠ b) :
    hRead (hWrite s a r) b = hRead s b := by
  unfold hRead hWrite
  rw [List.getD_eq_getElem?_getD, List.getD_eq_getElem?_getD,
    List.getElem?_set_ne hab]

theorem mem_of_mem_set {α : Type} {l : List α} {i : Nat} {v x : α}
    (h : x ∈ l.set i v) : x = v ∨ x ∈ l := by
  induction l generalizing i with
  | nil => simp at h
  | cons b bs ih =>
      cases i with
      | zero =>
          rcases List.mem_cons.mp h with h1 | h1
          · exact Or.inl h1
          · exact Or.inr (List.mem_cons_of_mem _ h1)
      | succ i =>
          rcases List.mem_cons.mp h with h1 | h1
          · exact Or.inr (h1 ▸ List.mem_cons_self _ _)
          · rcases ih h1 with h2 | h2
            · exact Or.inl h2
            · exact Or.inr (List.mem_cons_of_mem _ h2)

theorem getD_mem_of_lt {α : Type} (l : List α) (q : Nat) (d : α)
    (h : q < l.length) : l.getD q d ∈ l := by
  rw [List.getD_eq_getElem l d h]
  exact List.getElem_mem h

/-- The elimination pass only writes temp addresses: reads below `n` are
unchanged provided every handle is at least `n`. -/
theorem crHElim_frame (s : Store) (th : List Nat) (rk col n : Nat)
    (hth : ∀ a ∈ th, n ≤ a) (b : Nat) (hb : b < n) :
    hRead (crHElim s th rk col) b = hRead s b := by
  unfold crHElim
  have main : ∀ (l : List Nat) (st : Store), (∀ q ∈ l, q < th.length) →
      hRead (l.foldl (fun st q =>
        if q = rk then st
        else if tol < absQ ((hRead st (th.getD q 0)).getD col 0) then
          hWrite st (th.getD q 0)
            (rowSubMul (hRead st (th.getD q 0)) (hRead st (th.getD rk 0))
              ((hRead st (th.getD q 0)).getD col 0 /
                (hRead st (th.getD rk 0)).getD col 0))
        else st) st) b = hRead st b := by
    intro l
    induction l with
    | nil => intro st _; rfl
    | cons q qs ih =>
        intro st hql
        rw [List.foldl_cons]
        rw [ih _ (fun x hx => hql x (List.mem_cons_of_mem _ hx))]
        by_cases hq : q = rk
        · rw [if_pos hq]
        · rw [if_neg hq]
          split
          · have haddr : n ≤ th.getD q 0 :=
              hth _ (getD_mem_of_lt th q 0 (hql q (List.mem_cons_self _ _)))
            exact hRead_hWrite_ne _ _ _ _ (by omega)
          · rfl
  exact main _ s (fun q hq => (List.mem_range.mp hq))

/-- Handles stay at or above `n` through a swap of two handle slots. -/
theorem swap_handles_ge (th : List Nat) (rk p n : Nat)
    (hth : ∀ a ∈ th, n ≤ a) (hp : p < th.length) (hrk : rk < th.length) :
    ∀ a ∈ (th.set rk (th.getD p 0)).set p (th.getD rk 0), n ≤ a := by
  intro a ha
  rcases mem_of_mem_set ha with h1 | h1
  · exact h1 ▸ hth _ (getD_mem_of_lt th rk 0 hrk)
  · rcases mem_of_mem_set h1 with h2 | h2
    · exact h2 ▸ hth _ (getD_mem_of_lt th p 0 hp)
    · exact hth _ h2

theorem crHFindAux_mem (s : Store) (th : List Nat) (col : Nat) (l : List Nat)
    (p : Nat) (h : crHFindAux s th col l = some p) : p ∈ l := by
  induction l with
  | nil => simp [crHFindAux] at h
  | cons a l ih =>
      unfold crHFindAux at h
      split at h
      · cases h; exact List.mem_cons_self _ _
      · exact List.mem_cons_of_mem _ (ih h)

/-- One column step preserves the frame invariant: reads below `n`
unchanged, handles at or above `n`, handle count constant. -/
theorem crHStep_frame (rows n : Nat) (st : Store × List Nat × Nat) (col : Nat)
    (hth : ∀ a ∈ st.2.1, n ≤ a) (hlen : st.2.1.length = rows) :
    (∀ b < n, hRead (crHStep rows st col).1 b = hRead st.1 b) ∧
      (∀ a ∈ (crHStep rows st col).2.1, n ≤ a) ∧
      (crHStep rows st col).2.1.length = rows := by
  unfold crHStep
  cases hf : crHFindAux st.1 st.2.1 col (List.range' st.2.2 (rows - st.2.2)) with
  | none => exact ⟨fun b _ => rfl, hth, hlen⟩
  | some p =>
      have hmem := crHFindAux_mem _ _ _ _ _ hf
      rw [List.mem_range'_1] at hmem
      have hp : p < st.2.1.length := by omega
      have hrk : st.2.2 < st.2.1.length := by omega
      by_cases hpr : p = st.2.2
      · simp only [if_pos hpr]
        exact ⟨fun b hb => crHElim_frame _ _ _ _ _ hth b hb, hth, hlen⟩
      · simp only [if_neg hpr]
        have hth1 := swap_handles_ge st.2.1 st.2.2 p n hth hp hrk
        refine ⟨fun b hb => crHElim_frame _ _ _ _ _ hth1 b hb, hth1, ?_⟩
        simp [List.length_set, hlen]

/-- The column sweep preserves the frame invariant. -/
theorem crHFold_frame (rows n : Nat) (l : List Nat) (st : Store × List Nat × Nat)
    (hth : ∀ a ∈ st.2.1, n ≤ a) (hlen : st.2.1.length = rows) :
    ∀ b < n, hRead (l.foldl (crHStep rows) st).1 b = hRead st.1 b := by
  induction l generalizing st with
  | nil => intro b _; rfl
  | cons c cs ih =>
      intro b hb
      obtain ⟨h1, h2, h3⟩ := crHStep_frame rows n st c hth hlen
      rw [List.foldl_cons, ih _ h2 h3 b hb, h1 b hb]

/-- C9: `check_rank` never mutates its argument.  In the heap model, after
`check_rank_heap` returns, every row cell the caller can address (any
address inside the original store, in particular the rows of the matrix it
passed in) holds exactly its old value: the elimination writes only the
freshly allocated defensive-copy cells, and the row swaps permute handles,
not cells. -/
theorem c9_check_rank_no_mutation (s : Store) (hs : List Nat) (a : Nat)
    (ha : a < s.length) :
    hRead (check_rank_heap s hs).2 a = hRead s a := by
  unfold check_rank_heap
  split
  · rfl
  · have hth : ∀ x ∈ List.range' s.length hs.length, s.length ≤ x := by
      intro x hx
      rw [List.mem_range'_1] at hx
      omega
    have hfold := crHFold_frame hs.length s.length
      (List.range ((hRead s (hs.headD 0)).length))
      (s ++ hs.map (hRead s), List.range' s.length hs.length, 0)
      hth (by simp)
    rw [hfold a ha]
    unfold hRead
    exact List.getD_append _ _ _ _ ha

/-- C9 witness: a concrete two-row store with both rows handed to
`check_rank_heap`; the caller's first row reads back unchanged. -/
theorem c9_check_rank_no_mutation_witness :
    0 < ([[1, 2], [3, 4]] : Store).length ∧
      hRead (check_rank_heap [[1, 2], [3, 4]] [0, 1]).2 0 =
        hRead [[1, 2], [3, 4]] 0 :=
  ⟨by decide, c9_check_rank_no_mutation [[1, 2], [3, 4]] [0, 1] 0 (by decide)⟩


/-! ### C6: rank bounds and rank monotonicity under column append -/

/-- `[A|B]`: the matrix `A` with the constant vector appended as a final
column (the Matrix Builder's augmented shape). -/
def appendCol (A : Mat) (B : List ℚ) : Mat :=
  List.zipWith (fun r b => r ++ [b]) A B

theorem getD_set_eq_ite {α : Type} (l : List α) (i j : Nat) (v d : α) :
    (l.set i v).getD j d = if i = j ∧ i < l.length then v else l.getD j d := by
  rw [List.getD_eq_getElem?_getD, List.getD_eq_getElem?_getD, List.getElem?_set]
  by_cases h1 : i = j
  · by_cases h2 : i < l.length
    · rw [if_pos h1, if_pos h2, if_pos ⟨h1, h2⟩]
      rfl
    · rw [if_pos h1, if_neg h2, if_neg (fun hc => h2 hc.2)]
      subst h1
      rw [List.getElem?_eq_none (by omega)]
  · rw [if_neg h1, if_neg (fun hc => h1 hc.1)]

theorem getD_dropLast {α : Type} (l : List α) (c : Nat) (d : α)
    (h : c < l.length - 1) : l.dropLast.getD c d = l.getD c d := by
  rw [List.getD_eq_getElem?_getD, List.getD_eq_getElem?_getD,
    List.getElem?_dropLast, if_pos h]

theorem zipWith_getD {α β γ : Type} (f : α → β → γ) (A : List α) (B : List β)
    (j : Nat) (dA : α) (dB : β) (dC : γ) (hj : j < A.length)
    (hAB : A.length = B.length) :
    (List.zipWith f A B).getD j dC = f (A.getD j dA) (B.getD j dB) := by
  have hjB : j < B.length := hAB ▸ hj
  rw [List.getD_eq_getElem?_getD, List.getD_eq_getElem?_getD,
    List.getD_eq_getElem?_getD, List.getElem?_zipWith,
    List.getElem?_eq_getElem hj, List.getElem?_eq_getElem hjB]
  rfl

theorem swapRows_length (m : Mat) (i p : Nat) :
    (swapRows m i p).length = m.length := by
  simp [swapRows, List.length_set]

theorem swapRows_getD (m : Mat) (i p j : Nat) (hi : i < m.length)
    (hp : p < m.length) :
    (swapRows m i p).getD j [] =
      if p = j then m.getD i []
      else if i = j then m.getD p [] else m.getD j [] := by
  unfold swapRows
  rw [getD_set_eq_ite, getD_set_eq_ite, List.length_set]
  rcases eq_or_ne p j with hpj | hpj
  · rw [if_pos ⟨hpj, hp⟩, if_pos hpj]
  · rw [if_neg (fun hc => hpj hc.1), if_neg hpj]
    rcases eq_or_ne i j with hij | hij
    · rw [if_pos ⟨hij, hi⟩, if_pos hij]
    · rw [if_neg (fun hc => hij hc.1), if_neg hij]

/-- The coupling between the plain matrix and the column-extended matrix
that the rank computation preserves: same row count, `w`-wide rows on the
left, and each right row is the left row plus one trailing entry. -/
def Coupled (w : Nat) (ta tb : Mat) : Prop :=
  ta.length = tb.length ∧ (∀ j < ta.length, (ta.getD j []).length = w) ∧
    ∀ j < ta.length,
      (tb.getD j []).length = w + 1 ∧ (tb.getD j []).dropLast = ta.getD j []

theorem Coupled.entry_eq {w : Nat} {ta tb : Mat} (h : Coupled w ta tb)
    (j col : Nat) (hcol : col < w) : entry tb j col = entry ta j col := by
  by_cases hj : j < ta.length
  · obtain ⟨hlen, hdrop⟩ := h.2.2 j hj
    unfold entry
    rw [← hdrop, getD_dropLast _ _ _ (by omega)]
  · have hj2 : ¬j < tb.length := by rw [← h.1]; exact hj
    unfold entry
    rw [List.getD_eq_getElem?_getD ta, List.getElem?_eq_none (by omega),
      List.getD_eq_getElem?_getD tb, List.getElem?_eq_none (by omega)]

theorem crFindAux_coupled {w : Nat} {ta tb : Mat} (h : Coupled w ta tb)
    (col : Nat) (hcol : col < w) (l : List Nat) :
    crFindAux tb col l = crFindAux ta col l := by
  induction l with
  | nil => rfl
  | cons q qs ih =>
      unfold crFindAux
      rw [h.entry_eq q col hcol, ih]

theorem Coupled.swap {w : Nat} {ta tb : Mat} (h : Coupled w ta tb)
    (i p : Nat) (hi : i < ta.length) (hp : p < ta.length) :
    Coupled w (swapRows ta i p) (swapRows tb i p) := by
  have hib : i < tb.length := h.1 ▸ hi
  have hpb : p < tb.length := h.1 ▸ hp
  refine ⟨by rw [swapRows_length, swapRows_length, h.1], ?_, ?_⟩
  · intro j hj
    rw [swapRows_length] at hj
    rw [swapRows_getD ta i p j hi hp]
    split
    · exact h.2.1 i hi
    · split
      · exact h.2.1 p hp
      · exact h.2.1 j hj
  · intro j hj
    rw [swapRows_length] at hj
    rw [swapRows_getD ta i p j hi hp, swapRows_getD tb i p j hib hpb]
    split
    · exact h.2.2 i hi
    · split
      · exact h.2.2 p hp
      · exact h.2.2 j hj

theorem crElimRows_length (pr : Row) (rk col : Nat) :
    ∀ (l : List Row) (j0 : Nat), (crElimRows pr rk col l j0).length = l.length := by
  intro l
  induction l with
  | nil => intro j0; rfl
  | cons r rs ih => intro j0; simp [crElimRows, ih]

theorem crElimRows_getD (pr : Row) (rk col : Nat) :
    ∀ (l : List Row) (j0 q : Nat), q < l.length →
      (crElimRows pr rk col l j0).getD q [] =
        if j0 + q = rk then l.getD q []
        else if tol < absQ ((l.getD q []).getD col 0) then
          rowSubMul (l.getD q []) pr ((l.getD q []).getD col 0 / pr.getD col 0)
        else l.getD q [] := by
  intro l
  induction l with
  | nil => intro j0 q hq; simp at hq
  | cons r rs ih =>
      intro j0 q hq
      cases q with
      | zero => simp [crElimRows]
      | succ q =>
          have hq2 : q < rs.length := by simpa using hq
          show (crElimRows pr rk col rs (j0 + 1)).getD q [] = _
          rw [ih (j0 + 1) q hq2]
          have harith : j0 + 1 + q = j0 + (q + 1) := by omega
          rw [harith]
          simp [List.getD_cons_succ]

theorem rowSubMul_length (a b : Row) (f : ℚ) :
    (rowSubMul a b f).length = min a.length b.length := by
  simp [rowSubMul, List.length_zipWith]

theorem rowSubMul_dropLast (a b : Row) (f : ℚ) (hab : a.length = b.length) :
    (rowSubMul a b f).dropLast = rowSubMul a.dropLast b.dropLast f := by
  apply List.ext_getElem?
  intro i
  rw [List.getElem?_dropLast]
  unfold rowSubMul
  rw [List.getElem?_zipWith, List.getElem?_zipWith,
    List.getElem?_dropLast, List.getElem?_dropLast,
    List.length_zipWith]
  by_cases hi : i < min a.length b.length - 1
  · rw [if_pos (by omega), if_pos (by omega), if_pos (by omega)]
  · rw [if_neg (by omega)]
    by_cases h1 : i < a.length - 1
    · rw [if_pos h1, if_neg (by omega)]
      cases a[i]? <;> rfl
    · rw [if_neg h1]

theorem crElim_coupled {w : Nat} {ta tb : Mat} (h : Coupled w ta tb)
    (rk col : Nat) (hcol : col < w) (hrk : rk < ta.length) :
    Coupled w (crElim ta rk col) (crElim tb rk col) := by
  have hlen : ta.length = tb.length := h.1
  have hpra : (ta.getD rk []).length = w := h.2.1 rk hrk
  obtain ⟨hprb, hprdrop⟩ := h.2.2 rk hrk
  have hfac : ∀ j, j < ta.length → (tb.getD j []).getD col 0 = (ta.getD j []).getD col 0 := by
    intro j hj
    have := h.entry_eq j col hcol
    unfold entry at this
    exact this
  have hprfac : (tb.getD rk []).getD col 0 = (ta.getD rk []).getD col 0 := hfac rk hrk
  refine ⟨?_, ?_, ?_⟩
  · unfold crElim
    rw [crElimRows_length, crElimRows_length, hlen]
  · intro j hj
    unfold crElim at hj ⊢
    rw [crElimRows_length] at hj
    rw [crElimRows_getD _ _ _ _ _ _ hj]
    split
    · exact h.2.1 j hj
    · split
      · rw [rowSubMul_length, hpra, h.2.1 j hj]
        omega
      · exact h.2.1 j hj
  · intro j hj
    unfold crElim at hj ⊢
    rw [crElimRows_length] at hj
    have hjb : j < tb.length := hlen ▸ hj
    rw [crElimRows_getD _ _ _ _ _ _ hj, crElimRows_getD _ _ _ _ _ _ hjb]
    obtain ⟨hrowb, hrowdrop⟩ := h.2.2 j hj
    rw [hfac j hj, hprfac]
    split
    · exact ⟨hrowb, hrowdrop⟩
    · split
      · constructor
        · rw [rowSubMul_length, hrowb, hprb]; omega
        · rw [rowSubMul_dropLast _ _ _ (by rw [hrowb, hprb]),
            hrowdrop, hprdrop]
      · exact ⟨hrowb, hrowdrop⟩

theorem crStep_fst_length (rows : Nat) (st : Mat × Nat) (col : Nat) :
    (crStep rows st col).1.length = st.1.length := by
  unfold crStep
  cases hf : crFind st.1 st.2 rows col with
  | none => rfl
  | some p =>
      show (crElim _ _ _).length = _
      unfold crElim
      rw [crElimRows_length]
      split
      · rfl
      · rw [swapRows_length]

theorem crStep_rank_ge (rows : Nat) (st : Mat × Nat) (col : Nat) :
    st.2 ≤ (crStep rows st col).2 := by
  unfold crStep
  cases hf : crFind st.1 st.2 rows col with
  | none => exact le_refl _
  | some p => exact Nat.le_succ _

theorem crStep_coupled {w : Nat} {ta tb : Mat} (h : Coupled w ta tb)
    (k col : Nat) (hcol : col < w) (rows : Nat) (hrows : rows = ta.length) :
    Coupled w (crStep rows (ta, k) col).1 (crStep rows (tb, k) col).1 ∧
      (crStep rows (ta, k) col).2 = (crStep rows (tb, k) col).2 := by
  unfold crStep
  unfold crFind
  rw [crFindAux_coupled h col hcol]
  cases hf : crFindAux ta col (List.range' k (rows - k)) with
  | none => exact ⟨h, rfl⟩
  | some p =>
      have hp := crFindAux_mem _ _ _ _ hf
      rw [List.mem_range'_1] at hp
      have hpa : p < ta.length := by omega
      have hka : k < ta.length := by omega
      by_cases hpk : p = k
      · simp only [if_pos hpk]
        exact ⟨crElim_coupled h k col hcol hka, trivial⟩
      · simp only [if_neg hpk]
        refine ⟨crElim_coupled (h.swap k p hka hpa) k col hcol ?_, trivial⟩
        rw [swapRows_length]
        exact hka

theorem crFold_coupled {w : Nat} (rows : Nat) :
    ∀ (cols : List Nat) (ta tb : Mat) (k : Nat), Coupled w ta tb →
      (∀ c ∈ cols, c < w) → rows = ta.length →
      Coupled w (cols.foldl (crStep rows) (ta, k)).1
          (cols.foldl (crStep rows) (tb, k)).1 ∧
        (cols.foldl (crStep rows) (ta, k)).2 =
          (cols.foldl (crStep rows) (tb, k)).2 := by
  intro cols
  induction cols with
  | nil => intro ta tb k h _ _; exact ⟨h, rfl⟩
  | cons c cs ih =>
      intro ta tb k h hc hrows
      obtain ⟨h1, h2⟩ := crStep_coupled h k c (hc c (List.mem_cons_self _ _)) rows hrows
      rw [List.foldl_cons, List.foldl_cons]
      have e1 : crStep rows (ta, k) c =
          ((crStep rows (ta, k) c).1, (crStep rows (ta, k) c).2) := rfl
      have e2 : crStep rows (tb, k) c =
          ((crStep rows (tb, k) c).1, (crStep rows (ta, k) c).2) := by
        rw [h2]
      rw [e1, e2]
      exact ih _ _ _ h1 (fun x hx => hc x (List.mem_cons_of_mem _ hx))
        (by rw [crStep_fst_length]; exact hrows)

/-- C6: the rank computed by `check_rank` is at most `min(rows, cols)` for
every matrix, and appending a constants column can only keep or increase
it: `check_rank(A) ≤ check_rank([A|B])` for every rectangular `A` and
equally long `B`. -/
theorem c6_rank_bounds :
    (∀ m : Mat, check_rank m ≤ min m.length ((m.headD []).length)) ∧
      ∀ (A : Mat) (B : List ℚ) (w : Nat),
        (∀ j < A.length, (A.getD j []).length = w) → A.length = B.length →
        check_rank A ≤ check_rank (appendCol A B) := by
  refine ⟨check_rank_le, ?_⟩
  intro A B w hRect hAB
  match A, hRect, hAB with
  | [], _, _ => exact Nat.zero_le _
  | r :: rs, hRect, hAB =>
    have hr : r.length = w := by
      have := hRect 0 (by simp)
      simpa using this
    by_cases hw : w = 0
    · have : r = [] := List.eq_nil_of_length_eq_zero (by omega)
      rw [check_rank, if_pos (Or.inr (by simp [this]))]
      exact Nat.zero_le _
    · match B, hAB with
      | b :: bs, hAB =>
        have hcoup : Coupled w (r :: rs) (appendCol (r :: rs) (b :: bs)) := by
          refine ⟨?_, hRect, ?_⟩
          · unfold appendCol
            rw [List.length_zipWith]
            simp at hAB ⊢
            omega
          · intro j hj
            unfold appendCol
            rw [zipWith_getD _ _ _ j [] 0 [] hj hAB]
            constructor
            · rw [List.length_append]
              have := hRect j hj
              simpa using this
            · rw [List.dropLast_concat]
        have hlenAB : (appendCol (r :: rs) (b :: bs)).length = (r :: rs).length := by
          unfold appendCol
          rw [List.length_zipWith]
          simp at hAB ⊢
          omega
        have hheadAB : (appendCol (r :: rs) (b :: bs)).headD [] = r ++ [b] := by
          simp [appendCol]
        have hfold := crFold_coupled (r :: rs).length (List.range w) (r :: rs)
          (appendCol (r :: rs) (b :: bs)) 0 hcoup
          (fun c hc => List.mem_range.mp hc) rfl
        have hrne : r ≠ [] := by
          intro hcon
          rw [hcon] at hr
          simp at hr
          exact hw hr.symm
        have g1 : ¬((r :: rs) = [] ∨ (r :: rs).headD [] = []) := by
          push_neg
          exact ⟨by simp, by simpa using hrne⟩
        have g2 : ¬(appendCol (r :: rs) (b :: bs) = [] ∨
            (appendCol (r :: rs) (b :: bs)).headD [] = []) := by
          push_neg
          constructor
          · intro hcon
            rw [hcon] at hlenAB
            simp at hlenAB
          · rw [hheadAB]
            simp
        rw [check_rank, if_neg g1, check_rank, if_neg g2]
        simp only [List.headD_cons]
        rw [hr, hheadAB, List.length_append, List.length_singleton, hr, hlenAB,
          List.range_succ, List.foldl_append, hfold.2, List.foldl_cons,
          List.foldl_nil]
        exact crStep_rank_ge _ _ _

/-- C6 witness: concrete instances of both bounds. -/
theorem c6_rank_bounds_witness :
    check_rank [[1, 2], [2, 4]] ≤ min 2 2 ∧
      check_rank [[1, 0], [0, 1]] ≤ check_rank (appendCol [[1, 0], [0, 1]] [5, 6]) :=
  ⟨c6_rank_bounds.1 [[1, 2], [2, 4]],
    c6_rank_bounds.2 [[1, 0], [0, 1]] [5, 6] 2 (by decide) (by decide)⟩


/-! ### Clean-run instrumentation for the Gauss-Jordan reducer

The reducer's tolerance handling breaks the claimed reduced-row-echelon
and idempotence properties (see the counterexamples above).  A run is
*clean* at step `i` when the selected pivot has magnitude at least the
tolerance and when every row's column-`i` entry is either exactly zero or
strictly above tolerance (no "dust").  For clean runs the classical
properties hold exactly; the instrumentation below runs the very same
steps and only records these checks. -/

/-- The cleanliness of one `gauss_jordan` step (checked on the matrix after
the pivot swap, mirroring the source's order of operations). -/
def gjStepOk (m : Mat) (i : Nat) : Bool :=
  (gjSwapped m i).all
      (fun row => decide (row.getD i 0 = 0 ∨ tol < absQ (row.getD i 0))) &&
    decide (tol ≤ absQ (entry (gjSwapped m i) i i))

/-- Cleanliness of a whole run over a pivot-index list. -/
def gjRunOk : Mat → List Nat → Bool
  | _, [] => true
  | m, i :: rest => gjStepOk m i && gjRunOk (gjStep m i) rest

/-- Cleanliness of the full `gauss_jordan` run. -/
def gauss_jordanOk (m : Mat) : Bool :=
  gjRunOk m (List.range (min m.length ((m.headD []).length - 1)))

/-- Rectangularity, pointwise: every row has width `c`. -/
def RectP (m : Mat) (c : Nat) : Prop :=
  ∀ j < m.length, (m.getD j []).length = c

instance : ∀ m c, Decidable (RectP m c) := fun m c => by
  unfold RectP; infer_instance

/-- Column `i` of `m` is the `i`-th standard basis vector: the shape a
clean pivot step leaves behind. -/
def ColUnit (m : Mat) (i : Nat) : Prop :=
  entry m i i = 1 ∧ ∀ j < m.length, j ≠ i → entry m j i = 0

theorem headD_eq_getD {α : Type} (l : List α) (d : α) : l.headD d = l.getD 0 d := by
  cases l <;> rfl

theorem gjScale_getD (r : Row) (p : ℚ) (q : Nat) :
    (gjScale r p).getD q 0 = r.getD q 0 / p := by
  induction r generalizing q with
  | nil => simp [gjScale]
  | cons a as ih =>
      cases q with
      | zero => rfl
      | succ q => simpa [gjScale] using ih q

theorem gjScale_length (r : Row) (p : ℚ) : (gjScale r p).length = r.length := by
  simp [gjScale]

theorem rowSubMul_getD (a b : Row) (f : ℚ) (q : Nat) (hab : a.length = b.length) :
    (rowSubMul a b f).getD q 0 = a.getD q 0 - f * b.getD q 0 := by
  by_cases hq : q < a.length
  · unfold rowSubMul
    rw [List.getD_eq_getElem?_getD, List.getElem?_zipWith,
      List.getElem?_eq_getElem hq, List.getElem?_eq_getElem (hab ▸ hq : q < b.length),
      List.getD_eq_getElem a 0 hq, List.getD_eq_getElem b 0 (hab ▸ hq)]
    rfl
  · have h1 : ¬q < (rowSubMul a b f).length := by
      rw [rowSubMul_length]; omega
    rw [List.getD_eq_getElem?_getD, List.getElem?_eq_none (by omega),
      List.getD_eq_getElem?_getD a, List.getElem?_eq_none (by omega),
      List.getD_eq_getElem?_getD b, List.getElem?_eq_none (by omega)]
    simp

theorem gjElimRows_length (pr : Row) (i : Nat) :
    ∀ (l : List Row) (j0 : Nat), (gjElimRows pr i l j0).length = l.length := by
  intro l
  induction l with
  | nil => intro j0; rfl
  | cons r rs ih => intro j0; simp [gjElimRows, ih]

theorem gjElimRows_getD (pr : Row) (i : Nat) :
    ∀ (l : List Row) (j0 q : Nat), q < l.length →
      (gjElimRows pr i l j0).getD q [] =
        if j0 + q = i then l.getD q []
        else if tol < absQ ((l.getD q []).getD i 0) then
          rowSubMul (l.getD q []) pr ((l.getD q []).getD i 0)
        else l.getD q [] := by
  intro l
  induction l with
  | nil => intro j0 q hq; simp at hq
  | cons r rs ih =>
      intro j0 q hq
      cases q with
      | zero => simp [gjElimRows]
      | succ q =>
          have hq2 : q < rs.length := by simpa using hq
          show (gjElimRows pr i rs (j0 + 1)).getD q [] = _
          rw [ih (j0 + 1) q hq2]
          have harith : j0 + 1 + q = j0 + (q + 1) := by omega
          rw [harith]
          simp [List.getD_cons_succ]

theorem gjElim_length (m : Mat) (i : Nat) : (gjElim m i).length = m.length := by
  unfold gjElim
  rw [gjElimRows_length]

theorem gjElim_getD (m : Mat) (i q : Nat) (hq : q < m.length) :
    (gjElim m i).getD q [] =
      if q = i then m.getD q []
      else if tol < absQ ((m.getD q []).getD i 0) then
        rowSubMul (m.getD q []) (m.getD i []) ((m.getD q []).getD i 0)
      else m.getD q [] := by
  unfold gjElim
  rw [gjElimRows_getD _ _ _ _ _ hq]
  simp only [Nat.zero_add]

theorem findPivotRow_lt (m : Mat) (i : Nat) (hi : i < m.length) :
    findPivotRow m i < m.length := by
  unfold findPivotRow
  have main : ∀ (l : List Nat) (p0 : Nat), (∀ j ∈ l, j < m.length) → p0 < m.length →
      (l.foldl (fun p j => if absQ (entry m j i) > absQ (entry m p i) then j else p) p0)
        < m.length := by
    intro l
    induction l with
    | nil => intro p0 _ hp0; exact hp0
    | cons a l ih =>
        intro p0 hl hp0
        rw [List.foldl_cons]
        refine ih _ (fun j hj => hl j (List.mem_cons_of_mem _ hj)) ?_
        split
        · exact hl a (List.mem_cons_self _ _)
        · exact hp0
  refine main _ i (fun j hj => ?_) hi
  rw [List.mem_range'_1] at hj
  omega

theorem findPivotRow_ge (m : Mat) (i : Nat) : i ≤ findPivotRow m i := by
  unfold findPivotRow
  have main : ∀ (l : List Nat) (p0 : Nat), (∀ j ∈ l, i ≤ j) → i ≤ p0 →
      i ≤ (l.foldl (fun p j => if absQ (entry m j i) > absQ (entry m p i) then j else p) p0) := by
    intro l
    induction l with
    | nil => intro p0 _ hp0; exact hp0
    | cons a l ih =>
        intro p0 hl hp0
        rw [List.foldl_cons]
        refine ih _ (fun j hj => hl j (List.mem_cons_of_mem _ hj)) ?_
        split
        · exact hl a (List.mem_cons_self _ _)
        · exact hp0
  refine main _ i (fun j hj => ?_) (le_refl i)
  rw [List.mem_range'_1] at hj
  omega

theorem swapRows_RectP (m : Mat) (c i p : Nat) (hR : RectP m c)
    (hi : i < m.length) (hp : p < m.length) : RectP (swapRows m i p) c := by
  intro j hj
  rw [swapRows_length] at hj
  rw [swapRows_getD m i p j hi hp]
  split
  · exact hR i hi
  · split
    · exact hR p hp
    · exact hR j hj

theorem gjSwapped_length (m : Mat) (i : Nat) : (gjSwapped m i).length = m.length := by
  unfold gjSwapped
  split
  · rfl
  · rw [swapRows_length]

theorem gjStep_length (m : Mat) (i : Nat) : (gjStep m i).length = m.length := by
  unfold gjStep
  split
  · rw [gjSwapped_length]
  · rw [gjElim_length, List.length_set, gjSwapped_length]

theorem set_scale_RectP (m : Mat) (c i : Nat) (hR : RectP m c) (hi : i < m.length)
    (p : ℚ) : RectP (m.set i (gjScale (m.getD i []) p)) c := by
  intro j hj
  rw [List.length_set] at hj
  rw [getD_set_eq_ite]
  split
  · rw [gjScale_length]
    exact hR i hi
  · exact hR j hj

theorem gjElim_RectP (m : Mat) (c i : Nat) (hR : RectP m c) (hi : i < m.length) :
    RectP (gjElim m i) c := by
  intro j hj
  rw [gjElim_length] at hj
  rw [gjElim_getD m i j hj]
  split
  · exact hR j hj
  · split
    · rw [rowSubMul_length, hR j hj, hR i hi]
      omega
    · exact hR j hj

theorem gjSwapped_RectP (m : Mat) (c i : Nat) (hR : RectP m c) (hi : i < m.length) :
    RectP (gjSwapped m i) c := by
  unfold gjSwapped
  split
  · exact hR
  · exact swapRows_RectP m c i _ hR hi (findPivotRow_lt m i hi)

theorem gjStep_RectP (m : Mat) (c i : Nat) (hR : RectP m c) (hi : i < m.length) :
    RectP (gjStep m i) c := by
  unfold gjStep
  have hR1 := gjSwapped_RectP m c i hR hi
  have hi1 : i < (gjSwapped m i).length := by rw [gjSwapped_length]; exact hi
  split
  · exact hR1
  · refine gjElim_RectP _ c i (set_scale_RectP _ c i hR1 hi1 _) ?_
    rw [List.length_set]
    exact hi1


theorem entry_swapRows (m : Mat) (i p j c : Nat) (hi : i < m.length)
    (hp : p < m.length) :
    entry (swapRows m i p) j c =
      if p = j then entry m i c else if i = j then entry m p c else entry m j c := by
  unfold entry
  rw [swapRows_getD m i p j hi hp]
  split
  · rfl
  · split
    · rfl
    · rfl

theorem absQ_zero : absQ 0 = 0 := by norm_num [absQ]

theorem absQ_one : absQ 1 = 1 := by norm_num [absQ]

theorem absQ_ne_zero (x : ℚ) (h : tol ≤ absQ x) : x ≠ 0 := by
  intro hcon
  rw [hcon, absQ_zero] at h
  exact absurd (lt_of_lt_of_le tol_pos h) (lt_irrefl 0)

/-- A clean pivot step establishes the standard-basis shape of its column:
the pivot entry becomes exactly 1 and every other row's entry in that
column becomes exactly 0. -/
theorem gjStep_establish (m : Mat) (c i : Nat) (hR : RectP m c)
    (hi : i < m.length) (_hic : i < c) (hok : gjStepOk m i = true) :
    ColUnit (gjStep m i) i := by
  rw [gjStepOk, Bool.and_eq_true, List.all_eq_true, decide_eq_true_eq] at hok
  obtain ⟨hclean, hpiv⟩ := hok
  have hL1 : (gjSwapped m i).length = m.length := gjSwapped_length m i
  have hR1 : RectP (gjSwapped m i) c := gjSwapped_RectP m c i hR hi
  have hclean' : ∀ j < (gjSwapped m i).length,
      ((gjSwapped m i).getD j []).getD i 0 = 0 ∨
        tol < absQ (((gjSwapped m i).getD j []).getD i 0) := by
    intro j hj
    have := hclean _ (getD_mem_of_lt _ j [] hj)
    rwa [decide_eq_true_eq] at this
  have hpivne : ((gjSwapped m i).getD i []).getD i 0 ≠ 0 := absQ_ne_zero _ hpiv
  rw [gjStep, if_neg (not_lt.mpr hpiv)]
  have hR2 : RectP ((gjSwapped m i).set i
      (gjScale ((gjSwapped m i).getD i []) (entry (gjSwapped m i) i i))) c :=
    set_scale_RectP _ c i hR1 (by rw [hL1]; exact hi) _
  have hM2len : ((gjSwapped m i).set i
      (gjScale ((gjSwapped m i).getD i []) (entry (gjSwapped m i) i i))).length
        = m.length := by
    rw [List.length_set, hL1]
  have hM2ii : (((gjSwapped m i).set i
      (gjScale ((gjSwapped m i).getD i []) (entry (gjSwapped m i) i i))).getD i []).getD i 0 = 1 := by
    rw [getD_set_eq_ite, if_pos ⟨rfl, by rw [hL1]; exact hi⟩, gjScale_getD]
    exact div_self hpivne
  have hM2ji : ∀ j, j ≠ i → ((gjSwapped m i).set i
      (gjScale ((gjSwapped m i).getD i []) (entry (gjSwapped m i) i i))).getD j [] =
        (gjSwapped m i).getD j [] := by
    intro j hji
    rw [getD_set_eq_ite, if_neg (fun hc => hji hc.1.symm)]
  constructor
  · show ((gjElim _ i).getD i []).getD i 0 = 1
    rw [gjElim_getD _ i i (by rw [hM2len]; exact hi), if_pos rfl]
    exact hM2ii
  · intro j hj hji
    rw [gjElim_length, hM2len] at hj
    show ((gjElim _ i).getD j []).getD i 0 = 0
    rw [gjElim_getD _ i j (by rw [hM2len]; exact hj), if_neg hji]
    split
    · rw [rowSubMul_getD _ _ _ i (by
        rw [hR2 j (by rw [hM2len]; exact hj), hR2 i (by rw [hM2len]; exact hi)])]
      rw [hM2ii]
      ring
    · rcases hclean' j (by rw [hL1]; exact hj) with h0 | habove
      · rw [hM2ji j hji]
        exact h0
      · rw [hM2ji j hji] at *
        exact absurd habove (by assumption)

/-- Every later step of the reduction preserves an established
standard-basis column exactly. -/
theorem gjStep_preserve (m : Mat) (c i i' : Nat) (hR : RectP m c)
    (hcu : ColUnit m i) (hii' : i < i') (hi' : i' < m.length) (_hic : i < c) :
    ColUnit (gjStep m i') i := by
  have hp := findPivotRow_lt m i' hi'
  have hpge := findPivotRow_ge m i'
  have hL1 : (gjSwapped m i').length = m.length := gjSwapped_length m i'
  have hR1 : RectP (gjSwapped m i') c := gjSwapped_RectP m c i' hR hi'
  have hcu1 : ColUnit (gjSwapped m i') i := by
    unfold gjSwapped
    split
    · exact hcu
    · constructor
      · rw [entry_swapRows m i' _ i i hi' hp, if_neg (by omega), if_neg (by omega)]
        exact hcu.1
      · intro j hj hji
        rw [swapRows_length] at hj
        rw [entry_swapRows m i' _ j i hi' hp]
        split
        · exact hcu.2 i' hi' (by omega)
        · split
          · exact hcu.2 _ hp (by omega)
          · exact hcu.2 j hj hji
  rw [gjStep]
  split
  · exact hcu1
  · have hM2ii : (((gjSwapped m i').set i'
        (gjScale ((gjSwapped m i').getD i' []) (entry (gjSwapped m i') i' i'))).getD i []).getD i 0
          = 1 := by
      rw [getD_set_eq_ite, if_neg (fun hc => by omega)]
      exact hcu1.1
    have hM2ji : ∀ j, j ≠ i → (((gjSwapped m i').set i'
        (gjScale ((gjSwapped m i').getD i' []) (entry (gjSwapped m i') i' i'))).getD j []).getD i 0
          = 0 → True := fun _ _ _ => trivial
    have hM2col : ∀ j < m.length, j ≠ i → (((gjSwapped m i').set i'
        (gjScale ((gjSwapped m i').getD i' []) (entry (gjSwapped m i') i' i'))).getD j []).getD i 0
          = 0 := by
      intro j hj hji
      rw [getD_set_eq_ite]
      split
      · rw [gjScale_getD]
        have : ((gjSwapped m i').getD i' []).getD i 0 = 0 :=
          hcu1.2 i' (by rw [hL1]; exact hi') (by omega)
        rw [this, zero_div]
      · exact hcu1.2 j (by rw [hL1]; exact hj) hji
    have hM2len : ((gjSwapped m i').set i'
        (gjScale ((gjSwapped m i').getD i' []) (entry (gjSwapped m i') i' i'))).length
          = m.length := by
      rw [List.length_set, hL1]
    have hR2 : RectP ((gjSwapped m i').set i'
        (gjScale ((gjSwapped m i').getD i' []) (entry (gjSwapped m i') i' i'))) c :=
      set_scale_RectP _ c i' hR1 (by rw [hL1]; exact hi') _
    have hprcol : (((gjSwapped m i').set i'
        (gjScale ((gjSwapped m i').getD i' []) (entry (gjSwapped m i') i' i'))).getD i' []).getD i 0
          = 0 := by
      rw [getD_set_eq_ite, if_pos ⟨rfl, by rw [hL1]; exact hi'⟩, gjScale_getD]
      have : ((gjSwapped m i').getD i' []).getD i 0 = 0 :=
        hcu1.2 i' (by rw [hL1]; exact hi') (by omega)
      rw [this, zero_div]
    constructor
    · show ((gjElim _ i').getD i []).getD i 0 = 1
      rw [gjElim_getD _ i' i (by rw [hM2len]; omega), if_neg (by omega)]
      split
      · rw [rowSubMul_getD _ _ _ i (by
          rw [hR2 i (by rw [hM2len]; omega), hR2 i' (by rw [hM2len]; exact hi')])]
        rw [hM2ii, hprcol]
        ring
      · exact hM2ii
    · intro j hj hji
      rw [gjElim_length, hM2len] at hj
      show ((gjElim _ i').getD j []).getD i 0 = 0
      rw [gjElim_getD _ i' j (by rw [hM2len]; exact hj)]
      by_cases hjip : j = i'
      · rw [if_pos hjip, hjip]
        exact hprcol
      · rw [if_neg hjip]
        split
        · rw [rowSubMul_getD _ _ _ i (by
            rw [hR2 j (by rw [hM2len]; exact hj), hR2 i' (by rw [hM2len]; exact hi')])]
          rw [hM2col j hj hji, hprcol]
          ring
        · exact hM2col j hj hji


/-- The clean-run invariant: a clean ascending run establishes the
standard-basis shape of every processed column and preserves previously
established ones, keeping the matrix rectangular and its row count. -/
theorem gjRun_invariant (c : Nat) :
    ∀ (n s : Nat) (m : Mat), RectP m c → s + n ≤ m.length → s + n ≤ c →
      gjRunOk m (List.range' s n) = true →
      (∀ x < s, ColUnit m x → ColUnit ((List.range' s n).foldl gjStep m) x) ∧
      (∀ x, s ≤ x → x < s + n → ColUnit ((List.range' s n).foldl gjStep m) x) ∧
      RectP ((List.range' s n).foldl gjStep m) c ∧
      ((List.range' s n).foldl gjStep m).length = m.length := by
  intro n
  induction n with
  | zero =>
      intro s m hR _ _ _
      exact ⟨fun x _ h => h, fun x h1 h2 => absurd h2 (by omega), hR, rfl⟩
  | succ n ih =>
      intro s m hR hlen hc hok
      rw [List.range'_succ] at hok ⊢
      simp only [gjRunOk, Bool.and_eq_true] at hok
      obtain ⟨hok1, hok2⟩ := hok
      have hsL : s < m.length := by omega
      have hsc : s < c := by omega
      have hest := gjStep_establish m c s hR hsL hsc hok1
      have hR2 := gjStep_RectP m c s hR hsL
      have hlen2 := gjStep_length m s
      obtain ⟨ihBelow, ihIn, ihR, ihLen⟩ :=
        ih (s + 1) (gjStep m s) hR2 (by omega) (by omega) hok2
      rw [List.foldl_cons]
      refine ⟨?_, ?_, ihR, by rw [ihLen, hlen2]⟩
      · intro x hx hcu
        exact ihBelow x (by omega)
          (gjStep_preserve m c x s hR hcu (by omega) hsL (by omega))
      · intro x h1 h2
        rcases eq_or_lt_of_le h1 with heq | hlt
        · exact heq ▸ ihBelow s (by omega) hest
        · exact ihIn x (by omega) (by omega)

/-- C4 amended: when the reduction is clean (every pivot step finds a
pivot of magnitude at least `1e-10` and meets no nonzero sub-tolerance
entry in its column), then for every pivot index `i` the reduced matrix
has entry exactly 1 at `(i, i)`, exactly 0 everywhere else in column `i`,
and exactly 0 to the left of the pivot in row `i` — i.e. the processed
columns are in exact reduced row-echelon form.  (Without cleanliness the
property fails: see the counterexample.) -/
theorem c4_amended_clean_rref (m : Mat) (hR : RectP m ((m.headD []).length))
    (hok : gauss_jordanOk m = true) :
    ∀ i < min m.length ((m.headD []).length - 1),
      entry (gauss_jordan m) i i = 1 ∧
      (∀ j < m.length, j ≠ i → entry (gauss_jordan m) j i = 0) ∧
      ∀ j < i, entry (gauss_jordan m) i j = 0 := by
  intro i hi
  have hk1 : min m.length ((m.headD []).length - 1) ≤ (m.headD []).length - 1 :=
    min_le_right _ _
  have hk2 : min m.length ((m.headD []).length - 1) ≤ m.length := min_le_left _ _
  rw [gauss_jordanOk, List.range_eq_range'] at hok
  obtain ⟨hBelow, hIn, hRect, hLen⟩ :=
    gjRun_invariant ((m.headD []).length)
      (min m.length ((m.headD []).length - 1)) 0 m hR (by omega) (by omega) hok
  have hG : gauss_jordan m =
      (List.range' 0 (min m.length ((m.headD []).length - 1))).foldl gjStep m := by
    rw [gauss_jordan, List.range_eq_range']
  have hcui := hIn i (by omega) (by omega)
  refine ⟨hG ▸ hcui.1, fun j hj hji => hG ▸ hcui.2 j (by rw [hLen]; exact hj) hji,
    fun j hj => ?_⟩
  have hcuj := hIn j (by omega) (by omega)
  exact hG ▸ hcuj.2 i (by rw [hLen]; omega) (by omega)

/-- C4 amended witness: on the spec's own well-conditioned system the run
is clean and the conclusion holds at pivot index 0. -/
theorem c4_amended_clean_rref_witness :
    gauss_jordanOk [[2, 3, 7], [1, -1, 1]] = true ∧
      (entry (gauss_jordan [[2, 3, 7], [1, -1, 1]]) 0 0 = 1 ∧
        (∀ j < ([[2, 3, 7], [1, -1, 1]] : Mat).length, j ≠ 0 →
          entry (gauss_jordan [[2, 3, 7], [1, -1, 1]]) j 0 = 0) ∧
        ∀ j < 0, entry (gauss_jordan [[2, 3, 7], [1, -1, 1]]) 0 j = 0) := by
  have hok : gauss_jordanOk ([[2, 3, 7], [1, -1, 1]] : Mat) = true := by
    norm_num [gauss_jordanOk, gjRunOk, gjStepOk, gjStep, gjSwapped, findPivotRow,
      entry, tol, absQ, List.range_succ, List.range', swapRows, gjScale, gjElim,
      gjElimRows, rowSubMul, List.all_cons, List.all_nil]
  exact ⟨hok, c4_amended_clean_rref _ (by decide) hok 0 (by decide)⟩

theorem findPivotRow_colUnit (m : Mat) (i : Nat) (hcu : ColUnit m i) :
    findPivotRow m i = i := by
  unfold findPivotRow
  have main : ∀ l : List Nat, (∀ j ∈ l, j < m.length ∧ j ≠ i) →
      (l.foldl (fun p j => if absQ (entry m j i) > absQ (entry m p i) then j else p) i) = i := by
    intro l
    induction l with
    | nil => intro _; rfl
    | cons a l ih =>
        intro hl
        rw [List.foldl_cons]
        have ha := hl a (List.mem_cons_self _ _)
        rw [if_neg ?hcond]
        case hcond =>
          rw [hcu.2 a ha.1 ha.2, hcu.1, absQ_zero, absQ_one]
          norm_num
        exact ih (fun j hj => hl j (List.mem_cons_of_mem _ hj))
  refine main _ (fun j hj => ?_)
  rw [List.mem_range'_1] at hj
  exact ⟨by omega, by omega⟩

theorem set_getD_self (m : Mat) (i : Nat) (_hi : i < m.length) :
    m.set i (m.getD i []) = m := by
  apply List.ext_getElem (by rw [List.length_set])
  intro n h1 h2
  rw [List.getElem_set]
  split
  · next h =>
      subst h
      exact List.getD_eq_getElem m [] h2
  · rfl

theorem gjScale_one (r : Row) : gjScale r 1 = r := by
  unfold gjScale
  simp [div_one]

theorem gjElim_identity (m : Mat) (i : Nat)
    (h : ∀ j < m.length, j ≠ i → ¬(tol < absQ ((m.getD j []).getD i 0))) :
    gjElim m i = m := by
  apply List.ext_getElem (by rw [gjElim_length])
  intro n h1 h2
  rw [← List.getD_eq_getElem _ [] h1, ← List.getD_eq_getElem _ [] h2,
    gjElim_getD m i n h2]
  by_cases hni : n = i
  · rw [if_pos hni]
  · rw [if_neg hni, if_neg (h n h2 hni)]

/-- A step at an already-established standard-basis column changes
nothing: the pivot search keeps row `i`, the pivot is exactly 1 so the
scaling is the identity, and no other row has an above-tolerance entry in
column `i`. -/
theorem gjStep_identity (m : Mat) (i : Nat) (hi : i < m.length)
    (hcu : ColUnit m i) : gjStep m i = m := by
  have hfp := findPivotRow_colUnit m i hcu
  have hsw : gjSwapped m i = m := by
    unfold gjSwapped
    rw [if_pos hfp]
  rw [gjStep, hsw, hcu.1, absQ_one, if_neg (by norm_num [tol]), gjScale_one,
    set_getD_self m i hi]
  exact gjElim_identity m i (fun j hj hji => by
    have : ((m.getD j []).getD i 0) = 0 := hcu.2 j hj hji
    rw [this, absQ_zero]
    exact not_lt.mpr (le_of_lt tol_pos))

theorem foldl_gjStep_identity (M : Mat) (l : List Nat)
    (h : ∀ i ∈ l, gjStep M i = M) : l.foldl gjStep M = M := by
  induction l with
  | nil => rfl
  | cons a l ih =>
      rw [List.foldl_cons, h a (List.mem_cons_self _ _)]
      exact ih (fun i hi => h i (List.mem_cons_of_mem _ hi))

/-- C7 amended: re-running `gauss_jordan` on the result of a *clean* run
(every pivot step found a pivot of magnitude at least `1e-10` and met no
nonzero sub-tolerance column entry) changes nothing.  (Without
cleanliness, idempotence fails: see the counterexample.) -/
theorem c7_amended_idempotent_clean (m : Mat)
    (hR : RectP m ((m.headD []).length)) (hok : gauss_jordanOk m = true) :
    gauss_jordan (gauss_jordan m) = gauss_jordan m := by
  match m, hR, hok with
  | [], _, _ => rfl
  | r :: rs, hR, hok =>
    have hk1 : min (r :: rs).length (((r :: rs).headD []).length - 1) ≤
        ((r :: rs).headD []).length - 1 := min_le_right _ _
    have hk2 : min (r :: rs).length (((r :: rs).headD []).length - 1) ≤
        (r :: rs).length := min_le_left _ _
    rw [gauss_jordanOk, List.range_eq_range'] at hok
    obtain ⟨hBelow, hIn, hRect, hLen⟩ :=
      gjRun_invariant (((r :: rs).headD []).length)
        (min (r :: rs).length (((r :: rs).headD []).length - 1)) 0 (r :: rs)
        hR (by omega) (by omega) hok
    have hG : gauss_jordan (r :: rs) =
        (List.range' 0 (min (r :: rs).length
          (((r :: rs).headD []).length - 1))).foldl gjStep (r :: rs) := by
      rw [gauss_jordan, List.range_eq_range']
    have hGlen : (gauss_jordan (r :: rs)).length = (r :: rs).length := by
      rw [hG, hLen]
    have hGne : gauss_jordan (r :: rs) ≠ [] := by
      intro hcon
      rw [hcon] at hGlen
      simp at hGlen
    have hGhead : ((gauss_jordan (r :: rs)).headD []).length =
        ((r :: rs).headD []).length := by
      have hRect2 : RectP (gauss_jordan (r :: rs)) (((r :: rs).headD []).length) := by
        rw [hG]; exact hRect
      rw [headD_eq_getD, headD_eq_getD, hRect2 0 (by rw [hGlen]; simp)]
      rfl
    rw [gauss_jordan, hGlen, hGhead, List.range_eq_range']
    apply foldl_gjStep_identity
    intro i hi
    rw [List.mem_range'_1] at hi
    refine gjStep_identity _ i (by rw [hGlen]; omega) ?_
    exact hG ▸ hIn i (by omega) (by omega)

/-- C7 amended witness: the clean run on the spec's well-conditioned
system is a fixed point of re-reduction. -/
theorem c7_amended_idempotent_clean_witness :
    gauss_jordanOk [[2, 3, 7], [1, -1, 1]] = true ∧
      gauss_jordan (gauss_jordan [[2, 3, 7], [1, -1, 1]]) =
        gauss_jordan [[2, 3, 7], [1, -1, 1]] := by
  have hok : gauss_jordanOk ([[2, 3, 7], [1, -1, 1]] : Mat) = true := by
    norm_num [gauss_jordanOk, gjRunOk, gjStepOk, gjStep, gjSwapped, findPivotRow,
      entry, tol, absQ, List.range_succ, List.range', swapRows, gjScale, gjElim,
      gjElimRows, rowSubMul, List.all_cons, List.all_nil]
  exact ⟨hok, c7_amended_idempotent_clean _ (by decide) hok⟩


/-! ### Satisfaction of the linear system (C2)

A row of the augmented matrix encodes one linear equation over the first
`n` columns with the constant in column `n`.  Row operations preserve the
satisfaction of *all* rows in both directions (each elementary operation
is invertible), which is what connects the reduced matrix back to the
original equations. -/

/-- The value of a row's linear form over the first `n` columns at an
assignment vector. -/
def dotR (n : Nat) (r : Row) (x : List ℚ) : ℚ :=
  ∑ j ∈ Finset.range n, r.getD j 0 * x.getD j 0

/-- One augmented row is satisfied: its linear form over the first `n`
columns equals its column-`n` constant. -/
def rowSatN (n : Nat) (r : Row) (x : List ℚ) : Prop :=
  dotR n r x = r.getD n 0

/-- Every row of the matrix is satisfied. -/
def SatN (n : Nat) (m : Mat) (x : List ℚ) : Prop :=
  ∀ j < m.length, rowSatN n (m.getD j []) x

theorem map_getD {α β : Type} (f : α → β) (l : List α) (i : Nat) (dA : α)
    (dB : β) (hi : i < l.length) : (l.map f).getD i dB = f (l.getD i dA) := by
  rw [List.getD_eq_getElem?_getD, List.getElem?_map,
    List.getElem?_eq_getElem hi, List.getD_eq_getElem l dA hi]
  rfl

theorem getD_take {α : Type} (l : List α) (k i : Nat) (d : α) (hi : i < k) :
    (l.take k).getD i d = l.getD i d := by
  rw [List.getD_eq_getElem?_getD, List.getD_eq_getElem?_getD,
    List.getElem?_take, if_pos hi]

theorem getLastD_eq_getD_of_length (r : Row) (n : Nat) (h : r.length = n + 1) :
    r.getLastD 0 = r.getD n 0 := by
  rw [List.getLastD_eq_getLast?, List.getLast?_eq_getElem?, h,
    List.getD_eq_getElem?_getD]
  simp

theorem dotR_congr (n : Nat) (r1 r2 : Row) (x : List ℚ)
    (h : ∀ j < n, r1.getD j 0 = r2.getD j 0) : dotR n r1 x = dotR n r2 x := by
  unfold dotR
  refine Finset.sum_congr rfl (fun j hj => ?_)
  rw [h j (Finset.mem_range.mp hj)]

theorem dotR_scale (n : Nat) (r : Row) (p : ℚ) (x : List ℚ) :
    dotR n (gjScale r p) x = dotR n r x / p := by
  unfold dotR
  rw [Finset.sum_div]
  refine Finset.sum_congr rfl (fun j _ => ?_)
  rw [gjScale_getD]
  ring

theorem dotR_subMul (n : Nat) (a b : Row) (f : ℚ) (x : List ℚ)
    (hab : a.length = b.length) :
    dotR n (rowSubMul a b f) x = dotR n a x - f * dotR n b x := by
  unfold dotR
  rw [Finset.mul_sum, ← Finset.sum_sub_distrib]
  refine Finset.sum_congr rfl (fun j _ => ?_)
  rw [rowSubMul_getD a b f j hab]
  ring

theorem rowSatN_scale (n : Nat) (r : Row) (p : ℚ) (x : List ℚ) (hp : p ≠ 0) :
    rowSatN n (gjScale r p) x ↔ rowSatN n r x := by
  unfold rowSatN
  rw [dotR_scale, gjScale_getD]
  constructor
  · intro h
    have := congrArg (fun y => y * p) h
    simpa [div_mul_cancel₀ _ hp] using this
  · intro h
    rw [h]

theorem rowSatN_subMul (n : Nat) (a b : Row) (f : ℚ) (x : List ℚ)
    (hab : a.length = b.length) (hb : rowSatN n b x) :
    (rowSatN n (rowSubMul a b f) x ↔ rowSatN n a x) := by
  unfold rowSatN at *
  rw [dotR_subMul n a b f x hab, rowSubMul_getD a b f n hab, hb]
  constructor
  · intro h
    have := congrArg (fun y => y + f * b.getD n 0) h
    simpa using this
  · intro h
    rw [h]


theorem SatN_swap (n : Nat) (m : Mat) (i p : Nat) (x : List ℚ)
    (hi : i < m.length) (hp : p < m.length) :
    SatN n (swapRows m i p) x ↔ SatN n m x := by
  constructor
  · intro h j hj
    by_cases hji : j = i
    · rw [hji]
      have := h p (by rw [swapRows_length]; exact hp)
      rwa [swapRows_getD m i p p hi hp, if_pos rfl] at this
    · by_cases hjp : j = p
      · rw [hjp]
        by_cases hpi : p = i
        · exact absurd (hjp.trans hpi) hji
        · have := h i (by rw [swapRows_length]; exact hi)
          rwa [swapRows_getD m i p i hi hp, if_neg hpi, if_pos rfl] at this
      · have := h j (by rw [swapRows_length]; exact hj)
        rwa [swapRows_getD m i p j hi hp, if_neg (fun hc => hjp hc.symm),
          if_neg (fun hc => hji hc.symm)] at this
  · intro h j hj
    rw [swapRows_length] at hj
    rw [swapRows_getD m i p j hi hp]
    split
    · exact h i hi
    · split
      · exact h p hp
      · exact h j hj

theorem SatN_set_scale (n : Nat) (m : Mat) (i : Nat) (p : ℚ) (x : List ℚ)
    (hi : i < m.length) (hp : p ≠ 0) :
    SatN n (m.set i (gjScale (m.getD i []) p)) x ↔ SatN n m x := by
  constructor
  · intro h j hj
    by_cases hji : j = i
    · rw [hji]
      have := h i (by rw [List.length_set]; exact hi)
      rw [getD_set_eq_ite, if_pos ⟨rfl, hi⟩] at this
      exact (rowSatN_scale n _ p x hp).mp this
    · have := h j (by rw [List.length_set]; exact hj)
      rwa [getD_set_eq_ite, if_neg (fun hc => hji hc.1.symm)] at this
  · intro h j hj
    rw [List.length_set] at hj
    rw [getD_set_eq_ite]
    split
    · next hc =>
        exact (rowSatN_scale n _ p x hp).mpr (hc.1 ▸ h i hi)
    · exact h j hj

theorem SatN_gjElim (n : Nat) (m : Mat) (i : Nat) (x : List ℚ)
    (hi : i < m.length) (hR : RectP m (n + 1)) :
    SatN n (gjElim m i) x ↔ SatN n m x := by
  have hlens : ∀ j < m.length, (m.getD j []).length = (m.getD i []).length := by
    intro j hj
    rw [hR j hj, hR i hi]
  constructor
  · intro h j hj
    have hpiv : rowSatN n (m.getD i []) x := by
      have := h i (by rw [gjElim_length]; exact hi)
      rwa [gjElim_getD m i i hi, if_pos rfl] at this
    by_cases hji : j = i
    · exact hji ▸ hpiv
    · have := h j (by rw [gjElim_length]; exact hj)
      rw [gjElim_getD m i j hj, if_neg hji] at this
      rcases lt_or_le tol (absQ ((m.getD j []).getD i 0)) with hc | hc
      · rw [if_pos hc] at this
        exact (rowSatN_subMul n _ _ _ x (hlens j hj) hpiv).mp this
      · rwa [if_neg (not_lt.mpr hc)] at this
  · intro h j hj
    rw [gjElim_length] at hj
    have hpiv : rowSatN n (m.getD i []) x := h i hi
    rw [gjElim_getD m i j hj]
    split
    · next hji => exact hji ▸ hpiv
    · split
      · exact (rowSatN_subMul n _ _ _ x (hlens j hj) hpiv).mpr (h j hj)
      · exact h j hj

theorem SatN_gjStep (n : Nat) (m : Mat) (i : Nat) (x : List ℚ)
    (hi : i < m.length) (hR : RectP m (n + 1)) :
    SatN n (gjStep m i) x ↔ SatN n m x := by
  have hswap : SatN n (gjSwapped m i) x ↔ SatN n m x := by
    unfold gjSwapped
    split
    · exact Iff.rfl
    · exact SatN_swap n m i _ x hi (findPivotRow_lt m i hi)
  have hL1 : (gjSwapped m i).length = m.length := gjSwapped_length m i
  have hR1 : RectP (gjSwapped m i) (n + 1) := gjSwapped_RectP m (n + 1) i hR hi
  rw [gjStep]
  split
  · exact hswap
  · next hbr =>
      have hpne : entry (gjSwapped m i) i i ≠ 0 := absQ_ne_zero _ (not_lt.mp hbr)
      have hi1 : i < (gjSwapped m i).length := by rw [hL1]; exact hi
      have h1 : SatN n (gjElim ((gjSwapped m i).set i
          (gjScale ((gjSwapped m i).getD i []) (entry (gjSwapped m i) i i))) i) x ↔
          SatN n ((gjSwapped m i).set i
            (gjScale ((gjSwapped m i).getD i []) (entry (gjSwapped m i) i i))) x :=
        SatN_gjElim n _ i x (by rw [List.length_set]; exact hi1)
          (set_scale_RectP _ (n + 1) i hR1 hi1 _)
      have h2 : SatN n ((gjSwapped m i).set i
          (gjScale ((gjSwapped m i).getD i []) (entry (gjSwapped m i) i i))) x ↔
          SatN n (gjSwapped m i) x :=
        SatN_set_scale n _ i _ x hi1 hpne
      exact h1.trans (h2.trans hswap)

theorem foldl_gjStep_RectP (c : Nat) :
    ∀ (l : List Nat) (m : Mat), RectP m c → (∀ i ∈ l, i < m.length) →
      RectP (l.foldl gjStep m) c ∧ (l.foldl gjStep m).length = m.length := by
  intro l
  induction l with
  | nil => intro m hR _; exact ⟨hR, rfl⟩
  | cons a l ih =>
      intro m hR hl
      have ha := hl a (List.mem_cons_self _ _)
      have h1 := gjStep_RectP m c a hR ha
      have h2 := gjStep_length m a
      rw [List.foldl_cons]
      obtain ⟨hr, hlen⟩ := ih (gjStep m a) h1
        (fun i hi => by rw [h2]; exact hl i (List.mem_cons_of_mem _ hi))
      exact ⟨hr, by rw [hlen, h2]⟩

theorem SatN_foldl (n : Nat) (x : List ℚ) :
    ∀ (l : List Nat) (m : Mat), RectP m (n + 1) → (∀ i ∈ l, i < m.length) →
      (SatN n (l.foldl gjStep m) x ↔ SatN n m x) := by
  intro l
  induction l with
  | nil => intro m _ _; exact Iff.rfl
  | cons a l ih =>
      intro m hR hl
      have ha := hl a (List.mem_cons_self _ _)
      rw [List.foldl_cons]
      have h1 := ih (gjStep m a) (gjStep_RectP m (n + 1) a hR ha)
        (fun i hi => by rw [gjStep_length]; exact hl i (List.mem_cons_of_mem _ hi))
      exact h1.trans (SatN_gjStep n m a x ha hR)

theorem SatN_gauss_jordan (n : Nat) (m : Mat) (x : List ℚ)
    (hR : RectP m (n + 1)) :
    SatN n (gauss_jordan m) x ↔ SatN n m x := by
  rw [gauss_jordan]
  exact SatN_foldl n x _ m hR (fun i hi => by
    rw [List.mem_range] at hi
    have := min_le_left m.length ((m.headD []).length - 1)
    omega)


theorem insertSorted_perm (s : String) (l : List String) :
    (insertSorted s l).Perm (s :: l) := by
  induction l with
  | nil => exact List.Perm.refl _
  | cons x xs ih =>
      unfold insertSorted
      split
      · exact List.Perm.refl _
      · exact (List.Perm.cons x ih).trans (List.Perm.swap s x xs)

theorem sortStrings_perm (l : List String) : (sortStrings l).Perm l := by
  induction l with
  | nil => exact List.Perm.refl _
  | cons x xs ih =>
      exact (insertSorted_perm x (sortStrings xs)).trans (List.Perm.cons x ih)

theorem mem_varOrder (eqs : List Equation) (v : String) :
    v ∈ varOrder eqs ↔ v ∈ collectVars eqs := by
  unfold varOrder
  rw [(sortStrings_perm _).mem_iff, List.mem_dedup]

theorem var_mem_varOrder (eqs : List Equation) (e : Equation) (t : Term)
    (he : e ∈ eqs) (ht : t ∈ e.terms) : t.var ∈ varOrder eqs := by
  rw [mem_varOrder]
  unfold collectVars
  rw [List.mem_flatten]
  exact ⟨e.terms.map (fun t => t.var), List.mem_map_of_mem _ he,
    List.mem_map_of_mem _ ht⟩

theorem solGet_zip (vo : List String) (xv : List ℚ) (v : String) (hv : v ∈ vo) :
    solGet (vo.zip xv) v = xv.getD (vo.indexOf v) 0 := by
  induction vo generalizing xv with
  | nil => simp at hv
  | cons a vo ih =>
      cases xv with
      | nil =>
          simp [solGet, List.zip]
      | cons y xv =>
          rw [List.zip_cons_cons]
          by_cases hav : a = v
          · unfold solGet
            rw [List.find?_cons_of_pos _ (by simpa using hav)]
            rw [List.indexOf_cons]
            have : (a == v) = true := by simpa using hav
            rw [this]
            rfl
          · unfold solGet
            rw [List.find?_cons_of_neg _ (by simpa using hav)]
            rw [List.indexOf_cons]
            have : (a == v) = false := by simpa using hav
            rw [this]
            have hv2 : v ∈ vo := by
              rcases List.mem_cons.mp hv with h | h
              · exact absurd h.symm hav
              · exact h
            have := ih xv hv2
            unfold solGet at this
            rw [this]
            rfl

theorem dotR_set (n : Nat) (r : Row) (q : Nat) (v : ℚ) (x : List ℚ)
    (hq : q < n) (hq2 : q < r.length) :
    dotR n (r.set q v) x =
      dotR n r x - r.getD q 0 * x.getD q 0 + v * x.getD q 0 := by
  unfold dotR
  rw [Finset.sum_eq_sum_diff_singleton_add (Finset.mem_range.mpr hq)
      (fun j => (r.set q v).getD j 0 * x.getD j 0),
    Finset.sum_eq_sum_diff_singleton_add (Finset.mem_range.mpr hq)
      (fun j => r.getD j 0 * x.getD j 0)]
  have hdiff : ∑ j ∈ Finset.range n \ {q}, (r.set q v).getD j 0 * x.getD j 0 =
      ∑ j ∈ Finset.range n \ {q}, r.getD j 0 * x.getD j 0 := by
    refine Finset.sum_congr rfl (fun j hj => ?_)
    have hjq : j ≠ q := by
      rw [Finset.mem_sdiff, Finset.mem_singleton] at hj
      exact hj.2
    rw [getD_set_eq_ite, if_neg (fun hc => hjq hc.1.symm)]
  rw [hdiff, getD_set_eq_ite, if_pos ⟨rfl, hq2⟩]
  ring

theorem dotR_replicate_zero (n k : Nat) (x : List ℚ) :
    dotR n (List.replicate k 0) x = 0 := by
  unfold dotR
  refine Finset.sum_eq_zero (fun j _ => ?_)
  rw [List.getD_eq_getElem?_getD, List.getElem?_replicate]
  split <;> simp

theorem buildRowStep_length (vo : List String) (row : Row) (t : Term) :
    (buildRowStep vo row t).length = row.length := by
  simp [buildRowStep, List.length_set]

theorem buildRow_foldl_length (vo : List String) :
    ∀ (ts : List Term) (row : Row),
      (ts.foldl (buildRowStep vo) row).length = row.length := by
  intro ts
  induction ts with
  | nil => intro row; rfl
  | cons t ts ih =>
      intro row
      rw [List.foldl_cons, ih, buildRowStep_length]

theorem buildRow_length (vo : List String) (ts : List Term) :
    (buildRow vo ts).length = vo.length := by
  unfold buildRow
  rw [buildRow_foldl_length]
  simp

theorem dotR_buildRow_aux (vo : List String) (x : List ℚ) :
    ∀ (ts : List Term) (row : Row), row.length = vo.length →
      (∀ t ∈ ts, t.var ∈ vo) →
      dotR vo.length (ts.foldl (buildRowStep vo) row) x =
        dotR vo.length row x + evalTerms ts (vo.zip x) := by
  intro ts
  induction ts with
  | nil =>
      intro row _ _
      simp [evalTerms]
  | cons t ts ih =>
      intro row hrow hmem
      have htv : t.var ∈ vo := hmem t (List.mem_cons_self _ _)
      have hidx : vo.indexOf t.var < vo.length := List.indexOf_lt_length.mpr htv
      rw [List.foldl_cons, ih _ (by rw [buildRowStep_length]; exact hrow)
        (fun u hu => hmem u (List.mem_cons_of_mem _ hu))]
      unfold buildRowStep
      rw [dotR_set vo.length row (vo.indexOf t.var) _ x hidx (by rw [hrow]; exact hidx)]
      unfold evalTerms
      rw [List.map_cons, List.sum_cons]
      rw [solGet_zip vo x t.var htv]
      show _ = dotR vo.length row x +
        (signOf t.operator * t.coefficient * x.getD (vo.indexOf t.var) 0 +
          (ts.map (fun u => signOf u.operator * u.coefficient *
            solGet (vo.zip x) u.var)).sum)
      ring

theorem dotR_buildRow (vo : List String) (ts : List Term) (x : List ℚ)
    (hmem : ∀ t ∈ ts, t.var ∈ vo) :
    dotR vo.length (buildRow vo ts) x = evalTerms ts (vo.zip x) := by
  unfold buildRow
  rw [dotR_buildRow_aux vo x ts _ (by simp) hmem, dotR_replicate_zero]
  ring

theorem getD_append_self (r : Row) (b : ℚ) :
    (r ++ [b]).getD r.length 0 = b := by
  rw [List.getD_append_right _ _ _ _ (le_refl _)]
  simp

theorem dotR_append_last (n : Nat) (r : Row) (b : ℚ) (x : List ℚ)
    (hr : r.length = n) : dotR n (r ++ [b]) x = dotR n r x := by
  refine dotR_congr n _ r x (fun j hj => ?_)
  exact List.getD_append _ _ _ _ (by omega)

theorem augMatrixOf_length (eqs : List Equation) :
    (augMatrixOf eqs).length = eqs.length := by
  simp [augMatrixOf, matA, vecB, List.length_zipWith]

theorem augMatrixOf_getD (eqs : List Equation) (j : Nat) (hj : j < eqs.length) :
    (augMatrixOf eqs).getD j [] =
      buildRow (varOrder eqs) ((eqs.getD j ⟨[], 0⟩).terms) ++
        [(eqs.getD j ⟨[], 0⟩).rhs] := by
  unfold augMatrixOf matA vecB
  rw [zipWith_getD _ _ _ j [] 0 [] (by simpa using hj) (by simp)]
  rw [map_getD _ eqs j ⟨[], 0⟩ [] hj, map_getD _ eqs j ⟨[], 0⟩ 0 hj]

theorem augMatrixOf_RectP (eqs : List Equation) :
    RectP (augMatrixOf eqs) ((varOrder eqs).length + 1) := by
  intro j hj
  rw [augMatrixOf_length] at hj
  rw [augMatrixOf_getD eqs j hj, List.length_append, buildRow_length]
  simp

theorem gauss_jordan_RectP (m : Mat) (c : Nat) (hR : RectP m c) :
    RectP (gauss_jordan m) c ∧ (gauss_jordan m).length = m.length := by
  rw [gauss_jordan]
  refine foldl_gjStep_RectP c _ m hR (fun i hi => ?_)
  rw [List.mem_range] at hi
  have := min_le_left m.length ((m.headD []).length - 1)
  omega


/-- The spec's own well-conditioned demo system: `2x + 3y = 7`, `x - y = 1`. -/
def sysSpec : List Equation :=
  [⟨[⟨2, "x", Operator.ADD⟩, ⟨3, "y", Operator.ADD⟩], 7⟩,
   ⟨[⟨1, "x", Operator.ADD⟩, ⟨1, "y", Operator.SUB⟩], 1⟩]

theorem sysSpec_varOrder : varOrder sysSpec = ["x", "y"] := by decide

theorem sysSpec_aug : augMatrixOf sysSpec = [[2, 3, 7], [1, -1, 1]] := by
  have hb1 : (("x" : String) == "y") = false := by decide
  have ho : Operator.SUB ≠ Operator.ADD := by decide
  rw [augMatrixOf, matA, vecB, sysSpec_varOrder]
  norm_num [sysSpec, buildRow, buildRowStep, signOf, List.replicate,
    List.indexOf, List.findIdx, List.findIdx.go, hb1, ho]

theorem sysSpec_red : reducedAugOf sysSpec = [[1, 0, 2], [0, 1, 1]] := by
  rw [reducedAugOf, sysSpec_aug]
  norm_num [gauss_jordan, gjStep, gjSwapped, findPivotRow, entry, tol, absQ,
    List.range_succ, List.range', swapRows, gjScale, gjElim, gjElimRows, rowSubMul]

theorem sysSpec_coeff : reducedCoeffOf sysSpec = [[1, 0], [0, 1]] := by
  rw [reducedCoeffOf, sysSpec_red]
  norm_num [List.dropLast]

theorem sysSpec_rankA : rankAOf sysSpec = 2 := by
  rw [rankAOf, sysSpec_coeff]
  norm_num [check_rank, crStep, crFind, crFindAux, crElim, crElimRows, entry, tol,
    absQ, List.range_succ, List.range', swapRows, rowSubMul, List.cons_ne_nil]

theorem sysSpec_rankAug : rankAugOf sysSpec = 2 := by
  rw [rankAugOf, sysSpec_red]
  norm_num [check_rank, crStep, crFind, crFindAux, crElim, crElimRows, entry, tol,
    absQ, List.range_succ, List.range', swapRows, rowSubMul, List.cons_ne_nil]

theorem sysSpec_numVars : numVarsOf sysSpec = 2 := by
  rw [numVarsOf, sysSpec_coeff]
  norm_num

theorem sysSpec_solve : solve_equations_manual sysSpec =
    SResult.unique [("x", 2), ("y", 1)] := by
  rw [solve_branch_uni sysSpec (by rw [sysSpec_rankA, sysSpec_rankAug])
      (by rw [sysSpec_rankA, sysSpec_numVars]; omega),
    sysSpec_varOrder, retOf, sysSpec_red]
  norm_num [List.zip, List.zipWith]

theorem sysSpec_ok : gauss_jordanOk (augMatrixOf sysSpec) = true := by
  rw [sysSpec_aug]
  norm_num [gauss_jordanOk, gjRunOk, gjStepOk, gjStep, gjSwapped, findPivotRow,
    entry, tol, absQ, List.range_succ, List.range', swapRows, gjScale, gjElim,
    gjElimRows, rowSubMul, List.all_cons, List.all_nil]

/-- C2 amended: when the Gauss-Jordan run on the augmented matrix is clean
(every pivot step finds a pivot of magnitude at least `1e-10` and meets no
nonzero sub-tolerance entry in its column) and every row of the reduced
matrix beyond the variable count carries an exactly-zero constant, then
the mapping returned by a `UniqueSolution` classification satisfies every
original equation exactly — in particular within the spec's `1e-9`
residual bound.  (Without cleanliness the property fails: see the
counterexample.) -/
theorem c2_amended_clean_unique_satisfies (eqs : List Equation)
    (sol : List (String × ℚ))
    (hok : gauss_jordanOk (augMatrixOf eqs) = true)
    (htail : ∀ j, numVarsOf eqs ≤ j → j < (reducedAugOf eqs).length →
      ((reducedAugOf eqs).getD j []).getLastD 0 = 0)
    (hsol : solve_equations_manual eqs = SResult.unique sol) :
    ∀ e ∈ eqs, evalTerms e.terms sol = e.rhs := by
  intro e he
  have hne : eqs ≠ [] := List.ne_nil_of_mem he
  have hpos : 0 < eqs.length := List.length_pos.mpr hne
  have haugRect : RectP (augMatrixOf eqs) ((varOrder eqs).length + 1) :=
    augMatrixOf_RectP eqs
  have haugLen : (augMatrixOf eqs).length = eqs.length := augMatrixOf_length eqs
  obtain ⟨hGRect0, hGlen0⟩ :=
    gauss_jordan_RectP (augMatrixOf eqs) ((varOrder eqs).length + 1) haugRect
  have hGRect : RectP (reducedAugOf eqs) ((varOrder eqs).length + 1) := hGRect0
  have hGlen : (reducedAugOf eqs).length = eqs.length := by
    rw [reducedAugOf, hGlen0, haugLen]
  have hGpos : 0 < (reducedAugOf eqs).length := by omega
  have hrow0 : ((reducedAugOf eqs).getD 0 []).length = (varOrder eqs).length + 1 :=
    hGRect 0 hGpos
  have hnum : numVarsOf eqs = (varOrder eqs).length := by
    rw [numVarsOf, reducedCoeffOf, headD_eq_getD,
      map_getD _ _ 0 [] [] hGpos, List.length_dropLast, hrow0]
    omega
  have h1 : rankAOf eqs = rankAugOf eqs := by
    by_contra hcon
    rw [solve_branch_no eqs hcon] at hsol
    exact SResult.noConfusion hsol
  have h2 : ¬rankAOf eqs < numVarsOf eqs := by
    intro hcon
    rw [solve_branch_inf eqs h1 hcon] at hsol
    simp [generate_infinite_solutions] at hsol
  have hsoleq : sol = (varOrder eqs).zip (retOf eqs) := by
    have h3 := hsol.symm.trans (solve_branch_uni eqs h1 h2)
    exact SResult.unique.inj h3
  have hcoefflen : (reducedCoeffOf eqs).length = eqs.length := by
    rw [reducedCoeffOf, List.length_map, hGlen]
  have hn_le : (varOrder eqs).length ≤ eqs.length := by
    have hge : numVarsOf eqs ≤ rankAOf eqs := Nat.le_of_not_lt h2
    have hle := check_rank_le (reducedCoeffOf eqs)
    have hra : rankAOf eqs = check_rank (reducedCoeffOf eqs) := rfl
    have hhd : ((reducedCoeffOf eqs).headD []).length = numVarsOf eqs := rfl
    omega
  have haug0len : ((augMatrixOf eqs).headD []).length = (varOrder eqs).length + 1 := by
    rw [headD_eq_getD]
    exact haugRect 0 (by omega)
  have hk : min (augMatrixOf eqs).length (((augMatrixOf eqs).headD []).length - 1) =
      (varOrder eqs).length := by
    rw [haugLen, haug0len]
    omega
  have hok' : gjRunOk (augMatrixOf eqs)
      (List.range' 0 (varOrder eqs).length) = true := by
    rw [← List.range_eq_range']
    rw [gauss_jordanOk, hk] at hok
    exact hok
  obtain ⟨-, hcuAll, -, -⟩ :=
    gjRun_invariant ((varOrder eqs).length + 1) (varOrder eqs).length 0
      (augMatrixOf eqs) haugRect (by omega) (by omega) hok'
  have hGfold : reducedAugOf eqs =
      (List.range' 0 (varOrder eqs).length).foldl gjStep (augMatrixOf eqs) := by
    rw [reducedAugOf, gauss_jordan, hk, List.range_eq_range']
  have hcu : ∀ i < (varOrder eqs).length, ColUnit (reducedAugOf eqs) i := by
    intro i hi
    rw [hGfold]
    exact hcuAll i (Nat.zero_le i) (by omega)
  have hSatG : SatN (varOrder eqs).length (reducedAugOf eqs) (retOf eqs) := by
    intro j hj
    have hrowlen : ((reducedAugOf eqs).getD j []).length = (varOrder eqs).length + 1 :=
      hGRect j hj
    have hlast : ((reducedAugOf eqs).getD j []).getLastD 0 =
        ((reducedAugOf eqs).getD j []).getD (varOrder eqs).length 0 :=
      getLastD_eq_getD_of_length _ _ hrowlen
    rw [rowSatN]
    by_cases hjn : j < (varOrder eqs).length
    · obtain ⟨hdiag, -⟩ := hcu j hjn
      have h0 : ∀ b ∈ Finset.range (varOrder eqs).length, b ≠ j →
          ((reducedAugOf eqs).getD j []).getD b 0 * (retOf eqs).getD b 0 = 0 := by
        intro b hb hbj
        obtain ⟨-, hoffb⟩ := hcu b (Finset.mem_range.mp hb)
        have hz : entry (reducedAugOf eqs) j b = 0 := hoffb j hj (Ne.symm hbj)
        rw [entry] at hz
        rw [hz, zero_mul]
      have h1' : j ∉ Finset.range (varOrder eqs).length →
          ((reducedAugOf eqs).getD j []).getD j 0 * (retOf eqs).getD j 0 = 0 :=
        fun hcon => absurd (Finset.mem_range.mpr hjn) hcon
      have hsum : dotR (varOrder eqs).length ((reducedAugOf eqs).getD j [])
          (retOf eqs) =
          ((reducedAugOf eqs).getD j []).getD j 0 * (retOf eqs).getD j 0 := by
        rw [dotR]
        exact Finset.sum_eq_single j h0 h1'
      have hdiag' : ((reducedAugOf eqs).getD j []).getD j 0 = 1 := hdiag
      rw [hsum, hdiag', one_mul, retOf, map_getD _ _ j [] 0 hj]
      exact hlast
    · have hjge : (varOrder eqs).length ≤ j := Nat.le_of_not_lt hjn
      have hz : ((reducedAugOf eqs).getD j []).getD (varOrder eqs).length 0 = 0 := by
        rw [← hlast]
        exact htail j (by omega) hj
      have hzero : ∑ b ∈ Finset.range (varOrder eqs).length,
          ((reducedAugOf eqs).getD j []).getD b 0 * (retOf eqs).getD b 0 = 0 := by
        refine Finset.sum_eq_zero (fun b hb => ?_)
        obtain ⟨-, hoffb⟩ := hcu b (Finset.mem_range.mp hb)
        have hbn : b < (varOrder eqs).length := Finset.mem_range.mp hb
        have hzz : entry (reducedAugOf eqs) j b = 0 := hoffb j hj (by omega)
        rw [entry] at hzz
        rw [hzz, zero_mul]
      rw [dotR, hzero, hz]
  have hSatA : SatN (varOrder eqs).length (augMatrixOf eqs) (retOf eqs) :=
    (SatN_gauss_jordan (varOrder eqs).length (augMatrixOf eqs) (retOf eqs)
      haugRect).mp hSatG
  obtain ⟨j, hjE, hje⟩ := List.mem_iff_getElem.mp he
  have hgetD : eqs.getD j ⟨[], 0⟩ = e := by
    rw [List.getD_eq_getElem _ _ hjE, hje]
  have hrow : (augMatrixOf eqs).getD j [] =
      buildRow (varOrder eqs) e.terms ++ [e.rhs] := by
    rw [augMatrixOf_getD eqs j hjE, hgetD]
  have hsat := hSatA j (by omega)
  rw [hrow, rowSatN] at hsat
  have hbl : (buildRow (varOrder eqs) e.terms).length = (varOrder eqs).length :=
    buildRow_length _ _
  rw [dotR_append_last _ _ _ _ hbl] at hsat
  have hlast2 : (buildRow (varOrder eqs) e.terms ++ [e.rhs]).getD
      (varOrder eqs).length 0 = e.rhs := by
    rw [← hbl]
    exact getD_append_self _ _
  rw [hlast2] at hsat
  rw [dotR_buildRow (varOrder eqs) e.terms (retOf eqs)
    (fun t ht => var_mem_varOrder eqs e t he ht)] at hsat
  rw [hsoleq]
  exact hsat

/-- C2 amended witness: on the spec's well-conditioned demo system the run
is clean, the tail condition is vacuous, the solver returns the unique
mapping `x = 2, y = 1`, and that mapping satisfies the first equation
exactly. -/
theorem c2_amended_clean_unique_satisfies_witness :
    gauss_jordanOk (augMatrixOf sysSpec) = true ∧
      evalTerms [⟨2, "x", Operator.ADD⟩, ⟨3, "y", Operator.ADD⟩]
        [("x", 2), ("y", 1)] = 7 := by
  refine ⟨sysSpec_ok, ?_⟩
  exact c2_amended_clean_unique_satisfies sysSpec [("x", 2), ("y", 1)]
    sysSpec_ok
    (by
      intro j hj1 hj2
      rw [sysSpec_numVars] at hj1
      rw [sysSpec_red] at hj2
      simp at hj2
      omega)
    sysSpec_solve
    ⟨[⟨2, "x", Operator.ADD⟩, ⟨3, "y", Operator.ADD⟩], 7⟩
    (by rw [sysSpec]; exact List.mem_cons_self _ _)

end EqSolver
